import Mathlib

/-!
Verification of the doomsday-fuel absorbing-Markov-chain solver
(`src/doomsday-fuel/solution.py`).

The Python program computes, for a square matrix of non-negative transition
counts, the exact absorption probabilities of state 0 into each absorbing
state, returned as a list of integer numerators followed by one common
denominator.

Shallow embedding conventions:

* Python `fractions.Fraction` values are modelled as Lean `ℚ` (both are
  always-reduced fractions with positive denominator).  The `Fraction`
  operations are modelled operationally, exactly as the rational component
  performs them: construct the cross-multiplied numerator and denominator and
  reduce (`Rat.divInt` is precisely "construct and reduce").  Lemmas `fadd_eq`,
  `fsub_eq`, `fmul_eq`, `fneg_eq`, `finv_eq`, `intFrac_eq` identify these
  operational definitions with the field operations of `ℚ`.
* Lists of lists of rationals model the `Matrix` class; every index access the
  Python code performs in range is modelled with `getD` defaults.  The places
  where the Python code can actually raise an exception (`__mul__` on
  mismatched operands, `determinant` of an empty matrix inside the general
  cofactor-based inverse) are additionally modelled exactly, `Option`-valued
  (`matrixMultiply?`, `det?`, `generalInverse?`), with `none` modelling a
  raised exception.
* Python `int(fraction)` truncates toward zero; `intOfRat` does the same via
  `Int.tdiv`.
-/

namespace DoomsdayFuel

/-- Model of `Fraction(n, d)`: the fraction `n / d` reduced to lowest terms
with positive denominator.  `Rat.divInt` performs exactly this
normalisation. -/
def fmk (n d : ℤ) : ℚ := Rat.divInt n d

/-- Model of `Fraction.__add__`: cross-multiply and reduce. -/
def fadd (a b : ℚ) : ℚ := Rat.divInt (a.num * b.den + b.num * a.den) (a.den * b.den)

/-- Model of `Fraction.__sub__`: cross-multiply and reduce. -/
def fsub (a b : ℚ) : ℚ := Rat.divInt (a.num * b.den - b.num * a.den) (a.den * b.den)

/-- Model of `Fraction.__mul__`: multiply numerators and denominators, reduce. -/
def fmul (a b : ℚ) : ℚ := Rat.divInt (a.num * b.num) (a.den * b.den)

/-- Model of `Fraction.__neg__`. -/
def fneg (a : ℚ) : ℚ := Rat.divInt (-a.num) a.den

/-- Model of `Fraction(1, q)`: the reciprocal of `q` (used by
`Matrix.inverse`).  For `q = 0` the Python constructor raises
`ZeroDivisionError`; this total model returns `0` there, and every theorem
that touches this case carries a non-singularity hypothesis. -/
def finv (a : ℚ) : ℚ := Rat.divInt a.den a.num

/-- Model of promoting a Python `int` to a `Fraction`. -/
def intFrac (k : ℤ) : ℚ := Rat.divInt k 1

/-- Model of Python `sum` over a list of fractions (left fold from `0`). -/
def fsum (l : List ℚ) : ℚ := l.foldl fadd 0

/-- Model of Python `int(q)` on a `Fraction`: truncation toward zero. -/
def intOfRat (q : ℚ) : ℤ := q.num.tdiv q.den

/-- Entry `(i, j)` of a list-of-rows matrix (`self.matrix[i][j]`). -/
def entry (m : List (List ℚ)) (i j : ℕ) : ℚ := (m.getD i []).getD j 0

/-- Model of `normalize`: convert a count matrix into a transition matrix,
row by row; an all-zero row stays all `Fraction(0, 1)`, any other row is
divided by its sum. -/
def normalize (matrix : List (List ℕ)) : List (List ℚ) :=
  matrix.map fun row =>
    if row.sum = 0 then row.map fun _ => fmk 0 1
    else row.map fun numerator : ℕ => fmk numerator row.sum

/-- The transient state indices collected by `canonical_form`: rows with some
non-zero entry, scanned in ascending order. -/
def transients (matrix : List (List ℚ)) : List ℕ :=
  (List.range matrix.length).filter fun state =>
    !((matrix.getD state []).all fun v => decide (v = 0))

/-- The absorbing state indices collected by `canonical_form`: all-zero rows,
scanned in ascending order. -/
def absorbings (matrix : List (List ℚ)) : List ℕ :=
  (List.range matrix.length).filter fun state =>
    (matrix.getD state []).all fun v => decide (v = 0)

/-- The `Q` (transient-to-transient) block built by `canonical_form`. -/
def qMatrix (matrix : List (List ℚ)) : List (List ℚ) :=
  (transients matrix).map fun state =>
    (transients matrix).map fun j => entry matrix state j

/-- The `R` (transient-to-absorbing) block built by `canonical_form`. -/
def rMatrix (matrix : List (List ℚ)) : List (List ℚ) :=
  (transients matrix).map fun state =>
    (absorbings matrix).map fun j => entry matrix state j

/-- Model of `canonical_form`: the pair `(Q, R)`. -/
def canonicalForm (matrix : List (List ℚ)) : List (List ℚ) × List (List ℚ) :=
  (qMatrix matrix, rMatrix matrix)

/-- Model of `Matrix.__sub__` (ranges over the left operand's indices, exactly
as the Python comprehension does). -/
def matSub (a b : List (List ℚ)) : List (List ℚ) :=
  (List.range a.length).map fun i =>
    (List.range (a.getD i []).length).map fun j =>
      fsub (entry a i j) (entry b i j)

/-- Model of the matrix-times-matrix branch of `Matrix.__mul__`: result rows
range over the left operand's row count, columns over the length of the right
operand's first row, and the inner sum over the length of the left operand's
current row. -/
def matrixMultiply (a b : List (List ℚ)) : List (List ℚ) :=
  (List.range a.length).map fun i =>
    (List.range (b.headD []).length).map fun j =>
      fsum ((List.range (a.getD i []).length).map fun k =>
        fmul (entry a i k) (entry b k j))

/-- Model of the scalar branch of `Matrix.__mul__`. -/
def scalarMultiply (a : List (List ℚ)) (c : ℚ) : List (List ℚ) :=
  a.map fun row => row.map fun x => fmul x c

/-- Model of `IdentityMatrix(size)`. -/
def identityMatrix (size : ℕ) : List (List ℚ) :=
  (List.range size).map fun i =>
    (List.range size).map fun j => if i = j then (1 : ℚ) else 0

/-- Model of `Matrix.minor(i, j)`: keep the rows of index `≠ i` (among
`range(len(matrix))`) and the columns of index `≠ j` (among
`range(len(matrix[0]))`).  Note the Python comprehension silently keeps
everything when `i` or `j` is out of range. -/
def minor (m : List (List ℚ)) (i j : ℕ) : List (List ℚ) :=
  ((List.range m.length).filter fun x => x != i).map fun x =>
    ((List.range (m.headD []).length).filter fun y => y != j).map fun y =>
      entry m x y

/-- Structural-recursion helper for `determinant`: the first argument is the
row count of the matrix, which drops by exactly one at each cofactor
expansion along row 0. -/
def detAux : ℕ → List (List ℚ) → ℚ
  | 0, _ => 0
  | fuel + 1, m =>
    if m.length = 1 ∧ (m.headD []).length = 1 then entry m 0 0
    else if m.length = 2 ∧ (m.headD []).length = 2 then
      fsub (fmul (entry m 0 0) (entry m 1 1)) (fmul (entry m 0 1) (entry m 1 0))
    else
      fsum ((List.range m.length).map fun i =>
        fmul (fmul (intFrac ((-1) ^ i)) (entry m 0 i)) (detAux fuel (minor m 0 i)))

/-- Model of `Matrix.determinant`: `1×1` and `2×2` closed forms, otherwise
Laplace expansion along row 0. -/
def determinant (m : List (List ℚ)) : ℚ := detAux m.length m

/-- Model of `Matrix.transpose`. -/
def transpose (m : List (List ℚ)) : List (List ℚ) :=
  (List.range (m.headD []).length).map fun i =>
    (List.range m.length).map fun j => entry m j i

/-- Model of `Matrix.cofactor`. -/
def cofactor (m : List (List ℚ)) : List (List ℚ) :=
  (List.range m.length).map fun i =>
    (List.range (m.headD []).length).map fun j =>
      fmul (intFrac ((-1) ^ (i + j))) (determinant (minor m i j))

/-- Model of `Matrix.adjoint`. -/
def adjoint (m : List (List ℚ)) : List (List ℚ) := transpose (cofactor m)

/-- Model of `Matrix.inverse`: closed forms for `1×1` and `2×2`, otherwise
`adjoint() * Fraction(1, determinant)`. -/
def inverse (m : List (List ℚ)) : List (List ℚ) :=
  let d := determinant m
  if m.length = 1 ∧ (m.headD []).length = 1 then [[finv d]]
  else if m.length = 2 ∧ (m.headD []).length = 2 then
    scalarMultiply [[entry m 1 1, fneg (entry m 0 1)],
                    [fneg (entry m 1 0), entry m 0 0]] (finv d)
  else scalarMultiply (adjoint m) (finv d)

/-- Model of `lcm`: `reduce(lambda x, y: (x * y) // gcd(x, y), numbers, 1)`. -/
def lcmList (numbers : List ℕ) : ℕ :=
  numbers.foldl (fun x y => x * y / Nat.gcd x y) 1

/-- The row of absorption probabilities the solver extracts: `b_matrix[0]`
where `B = (I - Q)⁻¹ · R`. -/
def absorptionRow (matrix : List (List ℕ)) : List ℚ :=
  let transitionMatrix := normalize matrix
  let q := (canonicalForm transitionMatrix).1
  let r := (canonicalForm transitionMatrix).2
  let n := inverse (matSub (identityMatrix q.length) q)
  (matrixMultiply n r).headD []

/-- Model of `solution`.  If row 0 sums to zero the short-circuit branch
answers directly; otherwise the absorption-probability row of state 0 is
scaled to the least common multiple of its denominators. -/
def solution (matrix : List (List ℕ)) : List ℤ :=
  if (matrix.headD []).sum = 0 then
    1 :: (((matrix.drop 1).filter fun row => row.sum == 0).map fun _ => (0 : ℤ)) ++ [1]
  else
    let probabilities := absorptionRow matrix
    let denominator := lcmList (probabilities.map Rat.den)
    (probabilities.map fun p => intOfRat (fmul p (intFrac denominator))) ++
      [(denominator : ℤ)]

/-- Fully faithful (`Option`-valued) model of the matrix-times-matrix branch
of `Matrix.__mul__`, including the index errors the comprehension can raise:
`none` models a raised `IndexError`.  The accesses are performed in the order
the Python generator performs them. -/
def matrixMultiply? (a b : List (List ℚ)) : Option (List (List ℚ)) :=
  a.mapM fun row => do
    let b0 ← b[0]?
    (List.range b0.length).mapM fun j => do
      let terms ← (List.range row.length).mapM fun k => do
        let x ← row[k]?
        let brow ← b[k]?
        let y ← brow[j]?
        pure (fmul x y)
      pure (fsum terms)

/-- Fully faithful (`Option`-valued) model of `Matrix.determinant`, with
`none` modelling a raised `IndexError` (in particular, `self.shape` raises on
a matrix with no rows).  Structural recursion on the row count, which drops by
exactly one at each cofactor expansion. -/
def detAux? : ℕ → List (List ℚ) → Option ℚ
  | 0, _ => none
  | fuel + 1, m =>
    if m.length = 1 ∧ (m.headD []).length = 1 then (m.headD [])[0]?
    else if m.length = 2 ∧ (m.headD []).length = 2 then do
      let a ← (m.headD [])[0]?
      let d ← (m.getD 1 [])[1]?
      let b ← (m.headD [])[1]?
      let c ← (m.getD 1 [])[0]?
      pure (fsub (fmul a d) (fmul b c))
    else do
      let terms ← (List.range m.length).mapM fun i => do
        let x ← (m.headD [])[i]?
        let d ← detAux? fuel (minor m 0 i)
        pure (fmul (fmul (intFrac ((-1) ^ i)) x) d)
      pure (fsum terms)

/-- Faithful determinant: a matrix with no rows makes `self.shape` raise. -/
def det? (m : List (List ℚ)) : Option ℚ := detAux? m.length m

/-- Fully faithful model of `Matrix.cofactor` (each entry takes a minor's
determinant, which raises on an empty minor). -/
def cofactor? (m : List (List ℚ)) : Option (List (List ℚ)) := do
  let r0 ← m[0]?
  (List.range m.length).mapM fun i =>
    (List.range r0.length).mapM fun j => do
      let d ← det? (minor m i j)
      pure (fmul (intFrac ((-1) ^ (i + j))) d)

/-- Fully faithful model of `Matrix.adjoint`. -/
def adjoint? (m : List (List ℚ)) : Option (List (List ℚ)) := do
  let cof ← cofactor? m
  pure (transpose cof)

/-- The general inverse formula `adjoint() * Fraction(1, determinant())`
of the specification, modelled faithfully: it fails when the adjoint or the
determinant raises, or when the determinant is zero (`Fraction(1, 0)`
raises `ZeroDivisionError`). -/
def generalInverse? (m : List (List ℚ)) : Option (List (List ℚ)) := do
  let adj ← adjoint? m
  let d ← det? m
  if d = 0 then none else pure (scalarMultiply adj (finv d))

/-- Fully faithful (`Option`-valued) model of `Matrix.minor`: the
comprehension bounds come from `self.shape`, which reads `self.matrix[0]` and
therefore raises an `IndexError` when the matrix has no rows (`none` models
the raise); on a non-empty matrix the comprehensions never raise and the
result is `minor`. -/
def minor? (m : List (List ℚ)) (i j : ℕ) : Option (List (List ℚ)) := do
  let _ ← m[0]?
  pure (minor m i j)

/-- Shape predicate: `m` has exactly `r` rows, each of length `c`. -/
def IsRect (m : List (List ℚ)) (r c : ℕ) : Prop :=
  m.length = r ∧ ∀ row ∈ m, row.length = c

/-- The Mathlib matrix denoted by a list-of-rows matrix of shape `r × c`. -/
def toMat (m : List (List ℚ)) (r c : ℕ) : Matrix (Fin r) (Fin c) ℚ :=
  Matrix.of fun i j => entry m i j

/-- One observed transition in the raw count matrix: the count from `s` to
`s'` is non-zero. -/
def step (matrix : List (List ℕ)) (s s' : ℕ) : Prop :=
  0 < (matrix.getD s []).getD s' 0

/-- Reachability along observed transitions of the count matrix. -/
def Reaches (matrix : List (List ℕ)) : ℕ → ℕ → Prop :=
  Relation.ReflTransGen (step matrix)

/-- A state is absorbing (terminal) when its row of observed transition
counts sums to zero. -/
def Absorbing (matrix : List (List ℕ)) (s : ℕ) : Prop :=
  (matrix.getD s []).sum = 0

/-- The precondition of the problem statement: the matrix is square and
non-empty, and from every state some absorbing state is reachable. -/
def ValidInput (matrix : List (List ℕ)) (n : ℕ) : Prop :=
  matrix.length = n ∧ (∀ row ∈ matrix, row.length = n) ∧ 0 < n ∧
    ∀ s, s < n → ∃ t, Reaches matrix s t ∧ Absorbing matrix t

/-! ### Identification of the operational Fraction arithmetic with the field of rationals -/

theorem fmk_eq (n d : ℤ) : fmk n d = (n : ℚ) / d := Rat.divInt_eq_div n d

theorem fadd_eq (a b : ℚ) : fadd a b = a + b := by
  have hq : (a.den : ℤ) ≠ 0 := Int.natCast_ne_zero.2 a.den_nz
  have hr : (b.den : ℤ) ≠ 0 := Int.natCast_ne_zero.2 b.den_nz
  rw [fadd, ← Rat.divInt_add_divInt _ _ hq hr, Rat.num_divInt_den, Rat.num_divInt_den]

theorem fsub_eq (a b : ℚ) : fsub a b = a - b := by
  have hq : (a.den : ℤ) ≠ 0 := Int.natCast_ne_zero.2 a.den_nz
  have hr : (b.den : ℤ) ≠ 0 := Int.natCast_ne_zero.2 b.den_nz
  rw [fsub, ← Rat.divInt_sub_divInt _ _ hq hr, Rat.num_divInt_den, Rat.num_divInt_den]

theorem fmul_eq (a b : ℚ) : fmul a b = a * b := by
  rw [fmul, ← Rat.divInt_mul_divInt', Rat.num_divInt_den, Rat.num_divInt_den]

theorem fneg_eq (a : ℚ) : fneg a = -a := (Rat.neg_def a).symm

theorem finv_eq (a : ℚ) : finv a = a⁻¹ := (Rat.inv_def' a).symm

theorem intFrac_eq (k : ℤ) : intFrac k = (k : ℚ) := by
  rw [intFrac, Rat.divInt_eq_div, Int.cast_one, div_one]

theorem foldl_fadd_eq (c : ℚ) (l : List ℚ) : l.foldl fadd c = c + l.sum := by
  induction l generalizing c with
  | nil => simp
  | cons x xs ih => rw [List.foldl_cons, ih, fadd_eq, List.sum_cons, add_assoc]

theorem fsum_eq (l : List ℚ) : fsum l = l.sum := by
  rw [fsum, foldl_fadd_eq, zero_add]

/-! ### List plumbing lemmas -/

theorem map_range_getD {α β : Type*} (l : List α) (d : α) (f : α → β) :
    ((List.range l.length).map fun i => f (l.getD i d)) = l.map f := by
  induction l with
  | nil => rfl
  | cons x xs ih =>
    rw [List.length_cons, List.range_succ_eq_map, List.map_cons, List.map_map]
    simp only [Function.comp_def, List.getD_cons_zero, List.getD_cons_succ, List.map_cons]
    rw [ih]

theorem map_range_getD_id {α : Type*} (l : List α) (d : α) :
    ((List.range l.length).map fun i => l.getD i d) = l := by
  simpa using map_range_getD l d id

theorem filter_bne_range_of_le (n i : ℕ) (h : n ≤ i) :
    (List.range n).filter (fun x => x != i) = List.range n := by
  rw [List.filter_eq_self]
  intro a ha
  have ha' : a < n := List.mem_range.1 ha
  simp [Nat.ne_of_lt (lt_of_lt_of_le ha' h)]

theorem filter_bne_range_of_lt (n i : ℕ) (h : i < n) :
    (List.range n).filter (fun x => x != i) =
      List.range i ++ List.range' (i + 1) (n - (i + 1)) := by
  induction n with
  | zero => exact absurd h (Nat.not_lt_zero i)
  | succ n ih =>
    rw [List.range_succ, List.filter_append]
    rcases Nat.lt_or_ge i n with hin | hin
    · rw [ih hin]
      have hne : (n != i) = true := by simp [Nat.ne_of_gt hin]
      rw [List.filter_cons, if_pos hne, List.filter_nil, List.append_assoc]
      have hcat : List.range' (i + 1) (n - (i + 1)) ++ [n] =
          List.range' (i + 1) (n - (i + 1) + 1) := by
        rw [List.range'_concat]
        have : i + 1 + 1 * (n - (i + 1)) = n := by omega
        rw [this]
      rw [hcat]
      have : n - (i + 1) + 1 = n + 1 - (i + 1) := by omega
      rw [this]
    · have hi : i = n := by omega
      subst hi
      rw [filter_bne_range_of_le i i le_rfl]
      simp

theorem length_filter_bne_range (n i : ℕ) (h : i < n) :
    ((List.range n).filter (fun x => x != i)).length = n - 1 := by
  rw [filter_bne_range_of_lt n i h]
  simp only [List.length_append, List.length_range, List.length_range']
  omega

theorem map_range_length_map {α β : Type*} (l : List α) (d : α) (F : ℕ → β) (g : α → β)
    (h : ∀ i, i < l.length → F i = g (l.getD i d)) :
    (List.range l.length).map F = l.map g := by
  induction l generalizing F with
  | nil => rfl
  | cons x xs ih =>
    rw [List.length_cons, List.range_succ_eq_map, List.map_cons, List.map_map, List.map_cons]
    have h0 : F 0 = g x := h 0 (Nat.succ_pos _)
    rw [h0]
    refine congrArg (g x :: ·) (ih (F ∘ Nat.succ) fun i hi => ?_)
    have hstep := h (i + 1) (Nat.succ_lt_succ hi)
    simpa using hstep

theorem map_range_take_f {α β : Type*} (l : List α) (d : α) (f : α → β) (i : ℕ)
    (hi : i ≤ l.length) :
    ((List.range i).map fun x => f (l.getD x d)) = (l.take i).map f := by
  have h1 : (l.take i).length = i := by rw [List.length_take]; omega
  have h2 : ∀ x, x < (l.take i).length → f (l.getD x d) = f ((l.take i).getD x d) := by
    intro x hx
    rw [h1] at hx
    rw [List.getD_eq_getElem?_getD l, List.getD_eq_getElem?_getD (l.take i),
      List.getElem?_take, if_pos hx]
  calc ((List.range i).map fun x => f (l.getD x d))
      = (List.range (l.take i).length).map fun x => f (l.getD x d) := by rw [h1]
    _ = (l.take i).map f := map_range_length_map (l.take i) d _ f h2

theorem map_range'_drop_f {α β : Type*} (l : List α) (d : α) (f : α → β) (s : ℕ) :
    ((List.range' s (l.length - s)).map fun x => f (l.getD x d)) = (l.drop s).map f := by
  rw [List.range'_eq_map_range, List.map_map]
  have h1 : (l.drop s).length = l.length - s := List.length_drop s l
  have h2 : ∀ y, y < (l.drop s).length →
      (((fun x => f (l.getD x d)) ∘ fun x => s + x)) y = f ((l.drop s).getD y d) := by
    intro y hy
    simp only [Function.comp_def]
    rw [List.getD_eq_getElem?_getD l, List.getD_eq_getElem?_getD (l.drop s),
      List.getElem?_drop]
  calc (List.range (l.length - s)).map ((fun x => f (l.getD x d)) ∘ fun x => s + x)
      = (List.range (l.drop s).length).map ((fun x => f (l.getD x d)) ∘ fun x => s + x) := by
        rw [h1]
    _ = (l.drop s).map f := map_range_length_map (l.drop s) d _ f h2

theorem map_range_getD_take {α : Type*} (l : List α) (d : α) (i : ℕ) (hi : i ≤ l.length) :
    ((List.range i).map fun x => l.getD x d) = l.take i := by
  have h := map_range_take_f l d (fun a => a) i hi
  rw [List.map_id'] at h
  exact h

theorem map_filter_bne_eraseIdx {α : Type*} (row : List α) (d : α) (j : ℕ)
    (hj : j < row.length) :
    (((List.range row.length).filter fun y => y != j).map fun y => row.getD y d) =
      row.eraseIdx j := by
  rw [filter_bne_range_of_lt _ _ hj, List.map_append, List.eraseIdx_eq_take_drop_succ]
  congr 1
  · exact map_range_getD_take row d j (le_of_lt hj)
  · have h := map_range'_drop_f row d (fun a => a) (j + 1)
    rw [List.map_id'] at h
    exact h

/-! ### C8: behaviour of `minor` -/

/-- C8 counterexample: `minor` called with both indices out of range does not
fail; the comprehensions exclude nothing and the whole matrix is returned
unchanged. -/
theorem minor_out_of_range_keeps_matrix :
    minor [[(1 : ℚ), 2], [3, 4]] 2 2 = [[(1 : ℚ), 2], [3, 4]] := by decide

/-- C8 amended: on a matrix with at least one row, `minor` never raises and
each index acts independently — an in-range row (column) index removes exactly
that row (column), while an out-of-range row (column) index removes nothing;
the only failure of `minor` is on a matrix with no rows, where the `shape`
access `self.matrix[0]` raises an `IndexError` before any comprehension
runs. -/
theorem minor_checked_behaviour (m : List (List ℚ)) (r c i j : ℕ)
    (hm : IsRect m r c) :
    (0 < r →
      minor? m i j = some (minor m i j) ∧
      (i < r → j < c → minor m i j = (m.eraseIdx i).map fun row => row.eraseIdx j) ∧
      (r ≤ i → j < c → minor m i j = m.map fun row => row.eraseIdx j) ∧
      (i < r → c ≤ j → minor m i j = m.eraseIdx i) ∧
      (r ≤ i → c ≤ j → minor m i j = m)) ∧
    (r = 0 → minor? m i j = none) := by
  obtain ⟨hlen, hrow⟩ := hm
  constructor
  · intro hrpos
    have hmlen : 0 < m.length := by rw [hlen]; exact hrpos
    have hhead : (m.headD []).length = c := by
      cases m with
      | nil => simp at hmlen
      | cons x xs => exact hrow x (List.mem_cons_self x xs)
    refine ⟨?_, ?_, ?_, ?_, ?_⟩
    · rw [minor?, List.getElem?_eq_getElem hmlen]
      rfl
    · intro hi hj
      rw [minor, hlen, hhead, filter_bne_range_of_lt r i hi, List.map_append]
      rw [List.eraseIdx_eq_take_drop_succ, List.map_append]
      have hG1 : ((List.range i).map fun x =>
          ((List.range c).filter fun y => y != j).map fun y => entry m x y) =
          (m.take i).map fun row =>
            ((List.range c).filter fun y => y != j).map fun y => row.getD y 0 := by
        simp only [entry]
        exact map_range_take_f m []
          (fun row => ((List.range c).filter fun y => y != j).map fun y => row.getD y 0)
          i (by omega)
      have hG2 : ((List.range' (i + 1) (r - (i + 1))).map fun x =>
          ((List.range c).filter fun y => y != j).map fun y => entry m x y) =
          (m.drop (i + 1)).map fun row =>
            ((List.range c).filter fun y => y != j).map fun y => row.getD y 0 := by
        simp only [entry]
        have := map_range'_drop_f m []
          (fun row => ((List.range c).filter fun y => y != j).map fun y => row.getD y 0)
          (i + 1)
        rwa [hlen] at this
      rw [hG1, hG2]
      congr 1
      · apply List.map_congr_left
        intro row hrowmem
        have hc : row.length = c := hrow _ (List.mem_of_mem_take hrowmem)
        rw [← hc]
        exact map_filter_bne_eraseIdx row 0 j (by omega)
      · apply List.map_congr_left
        intro row hrowmem
        have hc : row.length = c := hrow _ (List.mem_of_mem_drop hrowmem)
        rw [← hc]
        exact map_filter_bne_eraseIdx row 0 j (by omega)
    · intro hi hj
      rw [minor, hlen, hhead, filter_bne_range_of_le r i hi]
      have houter : ((List.range r).map fun x =>
          ((List.range c).filter fun y => y != j).map fun y => entry m x y) =
          m.map fun row =>
            ((List.range c).filter fun y => y != j).map fun y => row.getD y 0 := by
        simp only [entry]
        rw [← hlen]
        exact map_range_length_map m [] _ _ fun x hx => rfl
      rw [houter]
      apply List.map_congr_left
      intro row hrowmem
      have hc : row.length = c := hrow _ hrowmem
      rw [← hc]
      exact map_filter_bne_eraseIdx row 0 j (by omega)
    · intro hi hj
      rw [minor, hlen, hhead, filter_bne_range_of_lt r i hi, filter_bne_range_of_le c j hj,
        List.map_append, List.eraseIdx_eq_take_drop_succ]
      congr 1
      · have hG1 : ((List.range i).map fun x =>
            (List.range c).map fun y => entry m x y) =
            (m.take i).map fun row => (List.range c).map fun y => row.getD y 0 := by
          simp only [entry]
          exact map_range_take_f m []
            (fun row => (List.range c).map fun y => row.getD y 0) i (by omega)
        rw [hG1]
        have h2 : ((m.take i).map fun row => (List.range c).map fun y => row.getD y 0) =
            (m.take i).map id := by
          apply List.map_congr_left
          intro row hrowmem
          have hc : row.length = c := hrow _ (List.mem_of_mem_take hrowmem)
          rw [← hc, map_range_getD_id, id]
        rw [h2, List.map_id]
      · have hG2 : ((List.range' (i + 1) (r - (i + 1))).map fun x =>
            (List.range c).map fun y => entry m x y) =
            (m.drop (i + 1)).map fun row => (List.range c).map fun y => row.getD y 0 := by
          simp only [entry]
          have := map_range'_drop_f m []
            (fun row => (List.range c).map fun y => row.getD y 0) (i + 1)
          rwa [hlen] at this
        rw [hG2]
        have h2 : ((m.drop (i + 1)).map fun row => (List.range c).map fun y => row.getD y 0) =
            (m.drop (i + 1)).map id := by
          apply List.map_congr_left
          intro row hrowmem
          have hc : row.length = c := hrow _ (List.mem_of_mem_drop hrowmem)
          rw [← hc, map_range_getD_id, id]
        rw [h2, List.map_id]
    · intro hi hj
      rw [minor, hlen, hhead, filter_bne_range_of_le r i hi, filter_bne_range_of_le c j hj]
      have houter : ((List.range r).map fun x =>
          (List.range c).map fun y => entry m x y) =
          m.map fun row => (List.range c).map fun y => row.getD y 0 := by
        simp only [entry]
        rw [← hlen]
        exact map_range_length_map m [] _ _ fun x hx => rfl
      rw [houter]
      have : (m.map fun row => (List.range c).map fun y => row.getD y 0) = m.map id := by
        apply List.map_congr_left
        intro row hrowmem
        have hc : row.length = c := hrow _ hrowmem
        rw [← hc, map_range_getD_id, id]
      rw [this, List.map_id]
  · intro hr0
    have hm0 : m = [] := List.length_eq_zero.1 (by rw [hlen, hr0])
    subst hm0
    rfl

/-- Witness for C8 at a concrete `2×2` matrix with the mixed index pair
`(5, 0)` (row index out of range, column index in range). -/
theorem minor_checked_behaviour_witness :
    IsRect [[(1 : ℚ), 2], [3, 4]] 2 2 ∧
    ((0 < 2 →
      minor? [[(1 : ℚ), 2], [3, 4]] 5 0 = some (minor [[(1 : ℚ), 2], [3, 4]] 5 0) ∧
      (5 < 2 → 0 < 2 → minor [[(1 : ℚ), 2], [3, 4]] 5 0 =
        ([[(1 : ℚ), 2], [3, 4]].eraseIdx 5).map fun row => row.eraseIdx 0) ∧
      (2 ≤ 5 → 0 < 2 → minor [[(1 : ℚ), 2], [3, 4]] 5 0 =
        [[(1 : ℚ), 2], [3, 4]].map fun row => row.eraseIdx 0) ∧
      (5 < 2 → 2 ≤ 0 → minor [[(1 : ℚ), 2], [3, 4]] 5 0 =
        [[(1 : ℚ), 2], [3, 4]].eraseIdx 5) ∧
      (2 ≤ 5 → 2 ≤ 0 → minor [[(1 : ℚ), 2], [3, 4]] 5 0 = [[(1 : ℚ), 2], [3, 4]])) ∧
    (2 = 0 → minor? [[(1 : ℚ), 2], [3, 4]] 5 0 = none)) :=
  ⟨⟨by decide, by decide⟩,
    minor_checked_behaviour [[(1 : ℚ), 2], [3, 4]] 2 2 5 0 ⟨by decide, by decide⟩⟩


/-! ### C2: the three concrete scenarios from the specification -/

/-- C2: the three concrete input/output scenarios listed in the specification
hold for `solution` exactly as stated. -/
theorem solution_spec_examples :
    solution [[0, 1, 0, 0, 0, 1], [4, 0, 0, 3, 2, 0], [0, 0, 0, 0, 0, 0],
        [0, 0, 0, 0, 0, 0], [0, 0, 0, 0, 0, 0], [0, 0, 0, 0, 0, 0]] =
      [0, 3, 2, 9, 14] ∧
    solution [[0, 2, 1, 0, 0], [0, 0, 0, 3, 4], [0, 0, 0, 0, 0],
        [0, 0, 0, 0, 0], [0, 0, 0, 0, 0]] = [7, 6, 8, 21] ∧
    solution [[0, 0, 0, 0, 0], [1, 1, 1, 1, 1], [1, 1, 1, 1, 1],
        [0, 0, 0, 0, 0], [1, 1, 1, 1, 1]] = [1, 0, 1] :=
  ⟨by decide, by decide, by decide⟩

/-! ### C10: the single-state input -/

/-- C10: on the single-state input `[[0]]` the solver takes the absorbing
short-circuit branch and returns `[1, 1]` — the explicit-denominator
convention (numerator `1` for state 0, then denominator `1`). -/
theorem solution_single_state : solution [[0]] = [1, 1] := by decide

/-! ### C4: the absorbing-start short-circuit branch -/

/-- C4: whenever row 0 of the count matrix sums to `0`, `solution` returns
`1`, then one `0` for every other all-zero row (in ascending index order),
then the denominator `1`.  The branch is the first line of `solution` and
performs no matrix inversion. -/
theorem solution_absorbing_start (matrix : List (List ℕ))
    (h : (matrix.headD []).sum = 0) :
    solution matrix =
      1 :: (List.replicate ((matrix.drop 1).countP fun row => row.sum == 0) (0 : ℤ) ++ [1]) := by
  rw [solution, if_pos h, List.countP_eq_length_filter, ← List.map_const', List.cons_append]

/-- Witness for C4 at the concrete input `[[0,0],[1,1],[0,0]]`. -/
theorem solution_absorbing_start_witness :
    (([[0, 0], [1, 1], [0, 0]] : List (List ℕ)).headD []).sum = 0 ∧
    solution [[0, 0], [1, 1], [0, 0]] =
      1 :: (List.replicate ((([[0, 0], [1, 1], [0, 0]] : List (List ℕ)).drop 1).countP
        fun row => row.sum == 0) (0 : ℤ) ++ [1]) :=
  ⟨by decide, solution_absorbing_start _ (by decide)⟩

/-! ### C9: state 0 is the first transient index in the general branch -/

theorem normalize_length (matrix : List (List ℕ)) :
    (normalize matrix).length = matrix.length := by
  simp [normalize]

theorem sum_ne_zero_exists_ne {l : List ℕ} (h : l.sum ≠ 0) : ∃ x ∈ l, x ≠ 0 := by
  by_contra hc
  push_neg at hc
  exact h (List.sum_eq_zero hc)

theorem fmk_ne_zero {c s : ℕ} (hc : c ≠ 0) (hs : s ≠ 0) : fmk (c : ℕ) (s : ℕ) ≠ 0 := by
  rw [fmk_eq]
  push_cast
  exact div_ne_zero (Nat.cast_ne_zero.2 hc) (Nat.cast_ne_zero.2 hs)

theorem transients_head (matrix : List (List ℕ)) (h : (matrix.headD []).sum ≠ 0) :
    (transients (normalize matrix)).head? = some 0 := by
  cases matrix with
  | nil => simp at h
  | cons r rest =>
    rw [List.headD_cons] at h
    obtain ⟨c, hc, hcne⟩ := sum_ne_zero_exists_ne h
    have hmem : fmk (c : ℕ) (r.sum : ℕ) ∈ (normalize (r :: rest)).getD 0 [] := by
      simp only [normalize, List.map_cons, List.getD_cons_zero, if_neg h]
      exact List.mem_map_of_mem (fun numerator : ℕ => fmk (numerator : ℤ) ((r.sum : ℕ) : ℤ)) hc
    have hval : fmk (c : ℕ) (r.sum : ℕ) ≠ 0 := fmk_ne_zero hcne h
    have hall : (((normalize (r :: rest)).getD 0 []).all fun v => decide (v = 0)) = false := by
      rw [List.all_eq_false]
      exact ⟨_, hmem, by simp only [decide_eq_true_eq]; exact hval⟩
    unfold transients
    rw [normalize_length, List.length_cons, List.range_succ_eq_map, List.filter_cons, hall]
    simp

theorem transients_sorted (matrix : List (List ℚ)) :
    List.Sorted (· < ·) (transients matrix) :=
  (List.pairwise_lt_range _).filter _

/-- C9: when row 0 of the count matrix has a non-zero sum, state 0 is
classified transient, it is the first element of the (ascending) transient
index list, and consequently the first row of `R` — and hence of
`B = N·R` — is state 0's row. -/
theorem transients_head_state_zero (matrix : List (List ℕ))
    (h : (matrix.headD []).sum ≠ 0) :
    (transients (normalize matrix)).head? = some 0 ∧
    List.Sorted (· < ·) (transients (normalize matrix)) ∧
    (rMatrix (normalize matrix)).head? =
      some ((absorbings (normalize matrix)).map fun j => entry (normalize matrix) 0 j) := by
  refine ⟨transients_head matrix h, transients_sorted _, ?_⟩
  rw [rMatrix, List.head?_map, transients_head matrix h, Option.map_some']

/-- Witness for C9 at the concrete input `[[1,1],[0,0]]`. -/
theorem transients_head_state_zero_witness :
    (([[1, 1], [0, 0]] : List (List ℕ)).headD []).sum ≠ 0 ∧
    ((transients (normalize [[1, 1], [0, 0]])).head? = some 0 ∧
    List.Sorted (· < ·) (transients (normalize [[1, 1], [0, 0]])) ∧
    (rMatrix (normalize [[1, 1], [0, 0]])).head? =
      some ((absorbings (normalize [[1, 1], [0, 0]])).map
        fun j => entry (normalize [[1, 1], [0, 0]]) 0 j)) :=
  ⟨by decide, transients_head_state_zero _ (by decide)⟩

/-! ### C7: behaviour of matrix-times-matrix multiplication on mismatched shapes -/

theorem mapM_eq_some_map {α β : Type*} (l : List α) (f : α → Option β) (g : α → β)
    (h : ∀ x ∈ l, f x = some (g x)) : l.mapM f = some (l.map g) := by
  induction l with
  | nil => rfl
  | cons a t ih =>
    rw [List.mapM_cons, h a (List.mem_cons_self a t),
      ih fun x hx => h x (List.mem_cons_of_mem _ hx)]
    rfl

theorem mapM_eq_none {α β : Type*} (l : List α) (f : α → Option β) (x : α)
    (hx : x ∈ l) (hfx : f x = none) : l.mapM f = none := by
  induction l with
  | nil => exact absurd hx (List.not_mem_nil x)
  | cons a t ih =>
    rw [List.mapM_cons]
    rcases List.mem_cons.1 hx with rfl | hmem
    · rw [hfx]
      rfl
    · cases hfa : f a with
      | none => rfl
      | some y =>
        rw [ih hmem]
        rfl

theorem optionBind_some {α β : Type u} (a : α) (f : α → Option β) :
    ((some a : Option α) >>= f) = f a := rfl

theorem getElem?_eq_some_getD {α : Type*} (l : List α) (d : α) (i : ℕ) (h : i < l.length) :
    l[i]? = some (l.getD i d) := by
  rw [List.getD_eq_getElem?_getD, List.getElem?_eq_getElem h]
  rfl

theorem getD_mem {α : Type*} (l : List α) (d : α) (i : ℕ) (h : i < l.length) :
    l.getD i d ∈ l := by
  rw [List.getD_eq_getElem?_getD, List.getElem?_eq_getElem h]
  exact List.getElem_mem h

/-- C7 counterexample: the left operand has one column, the right operand has
two rows — the inner dimensions disagree — yet `__mul__` raises nothing and
returns a (truncated) product matrix. -/
theorem matrixMultiply_mismatch_returns_matrix :
    ([[(1 : ℚ)]].headD []).length ≠ ([[(1 : ℚ)], [(1 : ℚ)]] : List (List ℚ)).length ∧
    matrixMultiply? [[(1 : ℚ)]] [[(1 : ℚ)], [(1 : ℚ)]] = some [[(1 : ℚ)]] :=
  ⟨by decide, by decide⟩

/-- C7 amended: for rectangular operands (`a` of shape `r×k` with `r > 0`,
`b` of shape `m×c` with `c > 0`), multiplication fails (raises) exactly when
the left operand's column count exceeds the right operand's row count; when
`k ≤ m` — even when `k < m`, i.e. when the inner dimensions still disagree —
it silently returns the truncated product `matrixMultiply a b`. -/
theorem matrixMultiply_checked_behaviour (a b : List (List ℚ)) (r k m c : ℕ)
    (ha : IsRect a r k) (hb : IsRect b m c) (hr : 0 < r) (hc : 0 < c) :
    (m < k → matrixMultiply? a b = none) ∧
    (0 < m → k ≤ m → matrixMultiply? a b = some (matrixMultiply a b)) := by
  obtain ⟨haLen, haRow⟩ := ha
  obtain ⟨hbLen, hbRow⟩ := hb
  constructor
  · intro hmk
    obtain ⟨row0, hrow0⟩ := List.exists_mem_of_length_pos (by omega : 0 < a.length)
    apply mapM_eq_none a _ row0 hrow0
    show (do
      let b0 ← b[0]?
      (List.range b0.length).mapM fun j => do
        let terms ← (List.range row0.length).mapM fun kk => do
          let x ← row0[kk]?
          let brow ← b[kk]?
          let y ← brow[j]?
          pure (fmul x y)
        pure (fsum terms)) = none
    rcases Nat.eq_zero_or_pos m with hm0 | hmpos
    · have hbnil : b = [] := List.length_eq_zero.1 (by omega)
      subst hbnil
      rfl
    · rw [getElem?_eq_some_getD b [] 0 (by omega), optionBind_some]
      have hb0len : (b.getD 0 []).length = c := hbRow _ (getD_mem b [] 0 (by omega))
      apply mapM_eq_none _ _ 0 (List.mem_range.2 (by omega))
      have hinner : ((List.range row0.length).mapM fun kk => do
          let x ← row0[kk]?
          let brow ← b[kk]?
          let y ← brow[(0 : ℕ)]?
          pure (fmul x y)) = none := by
        apply mapM_eq_none _ _ m (List.mem_range.2 (by rw [haRow row0 hrow0]; omega))
        rw [getElem?_eq_some_getD row0 0 m (by rw [haRow row0 hrow0]; omega), optionBind_some,
          List.getElem?_eq_none (by omega)]
        rfl
      rw [hinner]
      rfl
  · intro hmpos hkm
    cases b with
    | nil => simp at hbLen; omega
    | cons b0 brest =>
      have hb0len : b0.length = c := hbRow b0 (List.mem_cons_self b0 brest)
      have hmul : matrixMultiply a (b0 :: brest) =
          a.map fun row => (List.range b0.length).map fun j =>
            fsum ((List.range row.length).map fun kk =>
              fmul (row.getD kk 0) (((b0 :: brest).getD kk []).getD j 0)) := by
        rw [matrixMultiply]
        rw [← haLen] at *
        exact map_range_length_map a [] _ _ fun i hi => by
          simp only [entry, List.headD_cons]
      rw [hmul]
      apply mapM_eq_some_map
      intro row hrowmem
      show (do
        let c0 ← (b0 :: brest)[0]?
        (List.range c0.length).mapM fun j => do
          let terms ← (List.range row.length).mapM fun kk => do
            let x ← row[kk]?
            let brow ← (b0 :: brest)[kk]?
            let y ← brow[j]?
            pure (fmul x y)
          pure (fsum terms)) = some _
      rw [List.getElem?_cons_zero, optionBind_some]
      apply mapM_eq_some_map
      intro j hj
      rw [List.mem_range, hb0len] at hj
      have hinner : ((List.range row.length).mapM fun kk => do
          let x ← row[kk]?
          let brow ← (b0 :: brest)[kk]?
          let y ← brow[j]?
          pure (fmul x y)) = some ((List.range row.length).map fun kk =>
            fmul (row.getD kk 0) (((b0 :: brest).getD kk []).getD j 0)) := by
        apply mapM_eq_some_map
        intro kk hkk
        rw [List.mem_range] at hkk
        have hkkb : kk < (b0 :: brest).length := by
          rw [hbLen]
          have := haRow row hrowmem
          omega
        rw [getElem?_eq_some_getD row 0 kk hkk, optionBind_some,
          getElem?_eq_some_getD (b0 :: brest) [] kk hkkb, optionBind_some,
          getElem?_eq_some_getD ((b0 :: brest).getD kk []) 0 j
            (by rw [hbRow _ (getD_mem _ [] kk hkkb)]; omega)]
        rfl
      rw [hinner]
      rfl

/-- Witness for C7: a genuine `1×2` times `2×1` product succeeds, and a
`1×3` left operand against a `2×1` right operand fails. -/
theorem matrixMultiply_checked_behaviour_witness :
    (IsRect [[(1 : ℚ), 2]] 1 2 ∧
      matrixMultiply? [[(1 : ℚ), 2]] [[(3 : ℚ)], [(4 : ℚ)]] =
        some (matrixMultiply [[(1 : ℚ), 2]] [[(3 : ℚ)], [(4 : ℚ)]])) ∧
    (IsRect [[(1 : ℚ), 2, 5]] 1 3 ∧
      matrixMultiply? [[(1 : ℚ), 2, 5]] [[(3 : ℚ)], [(4 : ℚ)]] = none) :=
  ⟨⟨⟨by decide, by decide⟩,
      (matrixMultiply_checked_behaviour _ _ 1 2 2 1 ⟨by decide, by decide⟩
        ⟨by decide, by decide⟩ (by decide) (by decide)).2 (by decide) (by decide)⟩,
    ⟨⟨by decide, by decide⟩,
      (matrixMultiply_checked_behaviour _ _ 1 3 2 1 ⟨by decide, by decide⟩
        ⟨by decide, by decide⟩ (by decide) (by decide)).1 (by decide)⟩⟩

/-! ### C6: the special-cased closed-form inverses against the general formula -/

/-- C6 counterexample: on the non-singular `1×1` matrix `[[2]]` the
special-cased inverse returns `[[1/2]]`, but the general formula
`adjoint() * Fraction(1, determinant())` has no result at all: the sole
cofactor takes the determinant of the empty minor, whose shape access
raises. -/
theorem generalInverse_fails_on_singleton :
    determinant [[(2 : ℚ)]] ≠ 0 ∧ generalInverse? [[(2 : ℚ)]] = none ∧
    inverse [[(2 : ℚ)]] = [[Rat.divInt 1 2]] :=
  ⟨by decide, by decide, by decide⟩

/-- C6 amended: for every non-singular `2×2` matrix the special-cased closed
form agrees entry-by-entry with the general cofactor formula; for a `1×1`
matrix the general formula fails (the empty minor's determinant raises) while
the special case returns the reciprocal. -/
theorem inverse_special_vs_general (m : List (List ℚ)) :
    (IsRect m 2 2 → determinant m ≠ 0 → generalInverse? m = some (inverse m)) ∧
    (IsRect m 1 1 → generalInverse? m = none ∧ inverse m = [[finv (determinant m)]]) := by
  constructor
  · rintro ⟨hlen, hrow⟩ hdet
    obtain ⟨r0, r1, hm⟩ := List.length_eq_two.1 hlen
    subst hm
    obtain ⟨p, q, h0⟩ := List.length_eq_two.1 (hrow r0 (by simp))
    obtain ⟨s, t, h1⟩ := List.length_eq_two.1 (hrow r1 (by simp))
    subst h0
    subst h1
    have hdet2 : determinant [[p, q], [s, t]] = fsub (fmul p t) (fmul q s) := rfl
    have h1 : generalInverse? [[p, q], [s, t]] =
        if fsub (fmul p t) (fmul q s) = 0 then none
        else some (scalarMultiply
          [[fmul (intFrac 1) t, fmul (intFrac (-1)) q],
           [fmul (intFrac (-1)) s, fmul (intFrac 1) p]]
          (finv (fsub (fmul p t) (fmul q s)))) := rfl
    rw [hdet2] at hdet
    rw [h1, if_neg hdet]
    have h2 : inverse [[p, q], [s, t]] =
        scalarMultiply [[t, fneg q], [fneg s, p]]
          (finv (fsub (fmul p t) (fmul q s))) := rfl
    rw [h2]
    have h3 : ([[fmul (intFrac 1) t, fmul (intFrac (-1)) q],
        [fmul (intFrac (-1)) s, fmul (intFrac 1) p]] : List (List ℚ)) =
        [[t, fneg q], [fneg s, p]] := by
      simp [fmul_eq, intFrac_eq, fneg_eq]
    rw [h3]
  · rintro ⟨hlen, hrow⟩
    obtain ⟨r0, hm⟩ := List.length_eq_one.1 hlen
    subst hm
    obtain ⟨p, h0⟩ := List.length_eq_one.1 (hrow r0 (by simp))
    subst h0
    exact ⟨rfl, rfl⟩

/-- Witness for C6 at the `2×2` matrix `[[1,2],[3,4]]` (determinant `-2`) and
the `1×1` matrix `[[5]]`. -/
theorem inverse_special_vs_general_witness :
    (IsRect [[(1 : ℚ), 2], [3, 4]] 2 2 ∧ determinant [[(1 : ℚ), 2], [3, 4]] ≠ 0 ∧
      generalInverse? [[(1 : ℚ), 2], [3, 4]] = some (inverse [[(1 : ℚ), 2], [3, 4]])) ∧
    (IsRect [[(5 : ℚ)]] 1 1 ∧
      generalInverse? [[(5 : ℚ)]] = none ∧
      inverse [[(5 : ℚ)]] = [[finv (determinant [[(5 : ℚ)]])]]) :=
  ⟨⟨⟨by decide, by decide⟩, by decide,
      (inverse_special_vs_general _).1 ⟨by decide, by decide⟩ (by decide)⟩,
    ⟨⟨by decide, by decide⟩,
      (inverse_special_vs_general _).2 ⟨by decide, by decide⟩⟩⟩

/-! ### C3: the returned denominator is the least common multiple of the
probability denominators, and is minimal -/

theorem lcmList_eq_foldl (l : List ℕ) : lcmList l = l.foldl Nat.lcm 1 := rfl

theorem foldl_lcm_ne_zero (l : List ℕ) (c : ℕ) (hc : c ≠ 0) (hl : ∀ x ∈ l, x ≠ 0) :
    l.foldl Nat.lcm c ≠ 0 := by
  induction l generalizing c with
  | nil => exact hc
  | cons x xs ih =>
    exact ih _ (Nat.lcm_ne_zero hc (hl x (List.mem_cons_self x xs)))
      fun y hy => hl y (List.mem_cons_of_mem _ hy)

theorem dvd_foldl_lcm (l : List ℕ) (c : ℕ) :
    c ∣ l.foldl Nat.lcm c ∧ ∀ x ∈ l, x ∣ l.foldl Nat.lcm c := by
  induction l generalizing c with
  | nil => exact ⟨dvd_rfl, fun x hx => absurd hx (List.not_mem_nil x)⟩
  | cons x xs ih =>
    obtain ⟨h1, h2⟩ := ih (Nat.lcm c x)
    refine ⟨(Nat.dvd_lcm_left c x).trans h1, fun y hy => ?_⟩
    rcases List.mem_cons.1 hy with rfl | hmem
    · exact (Nat.dvd_lcm_right c y).trans h1
    · exact h2 y hmem

theorem foldl_lcm_dvd (l : List ℕ) (c e : ℕ) (hc : c ∣ e) (hl : ∀ x ∈ l, x ∣ e) :
    l.foldl Nat.lcm c ∣ e := by
  induction l generalizing c with
  | nil => exact hc
  | cons x xs ih =>
    exact ih _ (Nat.lcm_dvd hc (hl x (List.mem_cons_self x xs)))
      fun y hy => hl y (List.mem_cons_of_mem _ hy)

theorem den_mul_natCast (q : ℚ) (d : ℕ) :
    (q * (d : ℚ)).den = q.den / Nat.gcd d q.den := by
  rw [Rat.mul_den, Rat.den_natCast, Rat.num_natCast, mul_one, Int.natAbs_mul,
    Int.natAbs_cast, Nat.Coprime.gcd_mul_left_cancel d q.reduced]

theorem den_mul_natCast_eq_one_iff (q : ℚ) (d : ℕ) :
    (q * (d : ℚ)).den = 1 ↔ q.den ∣ d := by
  rw [den_mul_natCast]
  constructor
  · intro h
    have h2 : q.den / Nat.gcd d q.den * Nat.gcd d q.den = q.den :=
      Nat.div_mul_cancel (Nat.gcd_dvd_right d q.den)
    rw [h, one_mul] at h2
    rw [← h2]
    exact Nat.gcd_dvd_left d q.den
  · intro h
    rw [Nat.gcd_eq_right h, Nat.div_self (Nat.pos_of_ne_zero q.den_nz)]

theorem intOfRat_den_one (x : ℚ) (h : x.den = 1) : ((intOfRat x : ℤ) : ℚ) = x := by
  rw [intOfRat, h, Nat.cast_one, Int.tdiv_one]
  exact Rat.coe_int_num_of_den_eq_one h

theorem fmul_intFrac_natCast (p : ℚ) (d : ℕ) : fmul p (intFrac (d : ℕ)) = p * (d : ℚ) := by
  rw [fmul_eq, intFrac_eq, Int.cast_natCast]

/-- C3: on the general branch, `solution` returns the probabilities of
`b_matrix[0]` scaled by the least common multiple of their (lowest-terms)
denominators; that lcm is positive, clears every denominator, each returned
numerator is exactly the corresponding probability times the denominator, and
the lcm is the least positive integer with this property. -/
theorem solution_denominator_lcm_minimal (matrix : List (List ℕ))
    (h : (matrix.headD []).sum ≠ 0) :
    solution matrix = ((absorptionRow matrix).map fun p =>
        intOfRat (fmul p (intFrac (lcmList ((absorptionRow matrix).map Rat.den))))) ++
      [(lcmList ((absorptionRow matrix).map Rat.den) : ℤ)] ∧
    0 < lcmList ((absorptionRow matrix).map Rat.den) ∧
    (∀ p ∈ absorptionRow matrix,
      (p * (lcmList ((absorptionRow matrix).map Rat.den) : ℚ)).den = 1) ∧
    (∀ p ∈ absorptionRow matrix,
      ((intOfRat (fmul p (intFrac (lcmList ((absorptionRow matrix).map Rat.den)))) : ℤ) : ℚ) =
        p * (lcmList ((absorptionRow matrix).map Rat.den) : ℚ)) ∧
    (∀ e : ℕ, 0 < e → (∀ p ∈ absorptionRow matrix, (p * (e : ℚ)).den = 1) →
      lcmList ((absorptionRow matrix).map Rat.den) ≤ e) := by
  have hdvd : ∀ p ∈ absorptionRow matrix,
      p.den ∣ lcmList ((absorptionRow matrix).map Rat.den) := by
    intro p hp
    rw [lcmList_eq_foldl]
    exact (dvd_foldl_lcm _ 1).2 p.den (List.mem_map_of_mem Rat.den hp)
  have hden1 : ∀ p ∈ absorptionRow matrix,
      (p * (lcmList ((absorptionRow matrix).map Rat.den) : ℚ)).den = 1 := by
    intro p hp
    exact (den_mul_natCast_eq_one_iff p _).2 (hdvd p hp)
  refine ⟨?_, ?_, hden1, ?_, ?_⟩
  · simp only [solution, if_neg h]
  · apply Nat.pos_of_ne_zero
    rw [lcmList_eq_foldl]
    apply foldl_lcm_ne_zero _ 1 one_ne_zero
    intro x hx
    obtain ⟨p, _, rfl⟩ := List.mem_map.1 hx
    exact p.den_nz
  · intro p hp
    rw [fmul_intFrac_natCast]
    exact intOfRat_den_one _ (hden1 p hp)
  · intro e he hall
    apply Nat.le_of_dvd he
    rw [lcmList_eq_foldl]
    apply foldl_lcm_dvd _ 1 e (one_dvd e)
    intro x hx
    obtain ⟨p, hp, rfl⟩ := List.mem_map.1 hx
    exact (den_mul_natCast_eq_one_iff p e).1 (hall p hp)

/-- Witness for C3 at the concrete input `[[1,1],[0,0]]`. -/
theorem solution_denominator_lcm_minimal_witness :
    (([[1, 1], [0, 0]] : List (List ℕ)).headD []).sum ≠ 0 ∧
    (solution [[1, 1], [0, 0]] = ((absorptionRow [[1, 1], [0, 0]]).map fun p =>
        intOfRat (fmul p (intFrac (lcmList ((absorptionRow [[1, 1], [0, 0]]).map Rat.den))))) ++
      [(lcmList ((absorptionRow [[1, 1], [0, 0]]).map Rat.den) : ℤ)] ∧
    0 < lcmList ((absorptionRow [[1, 1], [0, 0]]).map Rat.den) ∧
    (∀ p ∈ absorptionRow [[1, 1], [0, 0]],
      (p * (lcmList ((absorptionRow [[1, 1], [0, 0]]).map Rat.den) : ℚ)).den = 1) ∧
    (∀ p ∈ absorptionRow [[1, 1], [0, 0]],
      ((intOfRat (fmul p (intFrac (lcmList ((absorptionRow [[1, 1], [0, 0]]).map Rat.den)))) : ℤ) : ℚ) =
        p * (lcmList ((absorptionRow [[1, 1], [0, 0]]).map Rat.den) : ℚ)) ∧
    (∀ e : ℕ, 0 < e → (∀ p ∈ absorptionRow [[1, 1], [0, 0]], (p * (e : ℚ)).den = 1) →
      lcmList ((absorptionRow [[1, 1], [0, 0]]).map Rat.den) ≤ e)) :=
  ⟨by decide, solution_denominator_lcm_minimal _ (by decide)⟩

/-! ### Correspondence between the list-level matrix operations and Mathlib
matrices -/

theorem getD_eq_getElem_of_lt {α : Type*} (l : List α) (d : α) (i : ℕ) (h : i < l.length) :
    l.getD i d = l[i] := by
  rw [List.getD_eq_getElem?_getD, List.getElem?_eq_getElem h]
  rfl

theorem fsum_map_range (n : ℕ) (f : ℕ → ℚ) :
    fsum ((List.range n).map f) = ∑ i : Fin n, f i := by
  rw [fsum_eq]
  induction n with
  | zero => simp
  | succ n ih =>
    rw [List.range_succ, List.map_append, List.sum_append, ih, Fin.sum_univ_castSucc]
    simp

theorem entry_map_range (r c : ℕ) (g : ℕ → ℕ → ℚ) (i j : ℕ) (hi : i < r) (hj : j < c) :
    entry ((List.range r).map fun x => (List.range c).map fun y => g x y) i j = g i j := by
  have h1 : ((List.range r).map fun x => (List.range c).map fun y => g x y).getD i [] =
      (List.range c).map fun y => g i y := by
    rw [getD_eq_getElem_of_lt _ _ i (by simpa using hi), List.getElem_map, List.getElem_range]
  rw [entry, h1, getD_eq_getElem_of_lt _ _ j (by simpa using hj), List.getElem_map,
    List.getElem_range]

theorem isRect_map_range (r c : ℕ) (g : ℕ → ℕ → List ℚ → ℚ) :
    IsRect ((List.range r).map fun x => (List.range c).map fun y => g x y []) r c := by
  constructor
  · simp
  · intro row hrow
    obtain ⟨x, _, rfl⟩ := List.mem_map.1 hrow
    simp

theorem isRect_map_range' (r c : ℕ) (g : ℕ → ℕ → ℚ) :
    IsRect ((List.range r).map fun x => (List.range c).map fun y => g x y) r c := by
  constructor
  · simp
  · intro row hrow
    obtain ⟨x, _, rfl⟩ := List.mem_map.1 hrow
    simp

theorem IsRect.row_length {m : List (List ℚ)} {r c : ℕ} (hm : IsRect m r c)
    {i : ℕ} (hi : i < r) : (m.getD i []).length = c :=
  hm.2 _ (getD_mem m [] i (by rw [hm.1]; exact hi))

theorem IsRect.headD_length {m : List (List ℚ)} {r c : ℕ} (hm : IsRect m r c)
    (hr : 0 < r) : (m.headD []).length = c := by
  cases m with
  | nil =>
    exfalso
    have := hm.1
    simp at this
    omega
  | cons x xs => exact hm.2 x (List.mem_cons_self x xs)

theorem headD_eq_getD_zero {α : Type*} (l : List α) (d : α) : l.headD d = l.getD 0 d := by
  cases l <;> rfl

theorem eq_of_isRect_entry (a b : List (List ℚ)) (r c : ℕ)
    (ha : IsRect a r c) (hb : IsRect b r c)
    (h : ∀ i j, i < r → j < c → entry a i j = entry b i j) : a = b := by
  apply List.ext_getElem (by rw [ha.1, hb.1])
  intro i hia hib
  have hir : i < r := by rw [← ha.1]; exact hia
  apply List.ext_getElem
  · have h1 : a[i].length = c := ha.2 _ (List.getElem_mem hia)
    have h2 : b[i].length = c := hb.2 _ (List.getElem_mem hib)
    rw [h1, h2]
  · intro j hja hjb
    have hjc : j < c := by
      have h1 : a[i].length = c := ha.2 _ (List.getElem_mem hia)
      omega
    have := h i j hir hjc
    rwa [entry, entry, getD_eq_getElem_of_lt a [] i hia,
      getD_eq_getElem_of_lt b [] i hib,
      getD_eq_getElem_of_lt _ 0 j (by rw [ha.2 _ (List.getElem_mem hia)]; exact hjc),
      getD_eq_getElem_of_lt _ 0 j (by rw [hb.2 _ (List.getElem_mem hib)]; exact hjc)] at this

theorem identityMatrix_isRect (n : ℕ) : IsRect (identityMatrix n) n n :=
  isRect_map_range' n n _

theorem entry_identityMatrix (n i j : ℕ) (hi : i < n) (hj : j < n) :
    entry (identityMatrix n) i j = if i = j then (1 : ℚ) else 0 :=
  entry_map_range n n _ i j hi hj

theorem toMat_identityMatrix (n : ℕ) : toMat (identityMatrix n) n n = 1 := by
  funext i j
  rw [toMat, Matrix.of_apply, entry_identityMatrix n i j i.isLt j.isLt, Matrix.one_apply]
  simp [Fin.val_eq_val]

theorem matrixMultiply_isRect (a b : List (List ℚ)) (r k c : ℕ)
    (ha : IsRect a r k) (hb : IsRect b k c) (hk : 0 < k) :
    IsRect (matrixMultiply a b) r c := by
  rw [matrixMultiply, ha.1, hb.headD_length hk]
  exact isRect_map_range' r c _

theorem entry_matrixMultiply (a b : List (List ℚ)) (r k c : ℕ)
    (ha : IsRect a r k) (hb : IsRect b k c) (hk : 0 < k) (i j : ℕ)
    (hi : i < r) (hj : j < c) :
    entry (matrixMultiply a b) i j = ∑ t : Fin k, entry a i t * entry b t j := by
  rw [matrixMultiply, ha.1, hb.headD_length hk]
  rw [entry_map_range r c _ i j hi hj, ha.row_length hi, fsum_map_range]
  exact Finset.sum_congr rfl fun t _ => fmul_eq _ _

theorem toMat_matrixMultiply (a b : List (List ℚ)) (r k c : ℕ)
    (ha : IsRect a r k) (hb : IsRect b k c) (hk : 0 < k) :
    toMat (matrixMultiply a b) r c = toMat a r k * toMat b k c := by
  funext i j
  rw [toMat, Matrix.of_apply, entry_matrixMultiply a b r k c ha hb hk i j i.isLt j.isLt,
    Matrix.mul_apply]
  rfl

theorem matSub_isRect (a b : List (List ℚ)) (r c : ℕ) (ha : IsRect a r c) :
    IsRect (matSub a b) r c := by
  constructor
  · simp [matSub, ha.1]
  · intro row hrow
    rw [matSub] at hrow
    obtain ⟨x, hx, rfl⟩ := List.mem_map.1 hrow
    rw [List.mem_range, ha.1] at hx
    rw [List.length_map, List.length_range]
    exact ha.row_length hx

theorem entry_matSub (a b : List (List ℚ)) (r c : ℕ) (ha : IsRect a r c)
    (i j : ℕ) (hi : i < r) (hj : j < c) :
    entry (matSub a b) i j = fsub (entry a i j) (entry b i j) := by
  rw [matSub, ha.1]
  have hrow : ((List.range r).map fun i =>
      (List.range (a.getD i []).length).map fun j => fsub (entry a i j) (entry b i j)) =
      (List.range r).map fun i =>
      (List.range c).map fun j => fsub (entry a i j) (entry b i j) := by
    apply List.map_congr_left
    intro x hx
    rw [List.mem_range] at hx
    rw [ha.row_length hx]
  rw [hrow, entry_map_range r c _ i j hi hj]

theorem toMat_matSub (a b : List (List ℚ)) (r c : ℕ)
    (ha : IsRect a r c) :
    toMat (matSub a b) r c = toMat a r c - toMat b r c := by
  funext i j
  rw [toMat, Matrix.of_apply, entry_matSub a b r c ha i j i.isLt j.isLt, fsub_eq,
    Matrix.sub_apply]
  rfl

theorem scalarMultiply_isRect (a : List (List ℚ)) (r c : ℕ) (ha : IsRect a r c) (x : ℚ) :
    IsRect (scalarMultiply a x) r c := by
  constructor
  · simp [scalarMultiply, ha.1]
  · intro row hrow
    rw [scalarMultiply] at hrow
    obtain ⟨row', hrow', rfl⟩ := List.mem_map.1 hrow
    simp [ha.2 row' hrow']

theorem entry_scalarMultiply (a : List (List ℚ)) (r c : ℕ) (ha : IsRect a r c) (x : ℚ)
    (i j : ℕ) (hi : i < r) (hj : j < c) :
    entry (scalarMultiply a x) i j = fmul (entry a i j) x := by
  have hia : i < a.length := by rw [ha.1]; exact hi
  have hja : j < a[i].length := by rw [ha.2 _ (List.getElem_mem hia)]; exact hj
  have h1 : (scalarMultiply a x).getD i [] = a[i].map fun v => fmul v x := by
    rw [scalarMultiply, getD_eq_getElem_of_lt _ _ i (by simpa using hia), List.getElem_map]
  rw [entry, h1, getD_eq_getElem_of_lt _ _ j (by simpa using hja), List.getElem_map,
    entry, getD_eq_getElem_of_lt a [] i hia, getD_eq_getElem_of_lt _ _ j hja]

theorem toMat_scalarMultiply (a : List (List ℚ)) (r c : ℕ) (ha : IsRect a r c) (x : ℚ) :
    toMat (scalarMultiply a x) r c = x • toMat a r c := by
  funext i j
  rw [toMat, Matrix.of_apply, entry_scalarMultiply a r c ha x i j i.isLt j.isLt, fmul_eq,
    Matrix.smul_apply, toMat, Matrix.of_apply, smul_eq_mul, mul_comm]

/-! ### The list determinant computes the Mathlib determinant -/

theorem getD_filter_bne_range (n j y : ℕ) (hj : j < n) (hy : y < n - 1) :
    ((List.range n).filter fun t => t != j).getD y 0 = if y < j then y else y + 1 := by
  rw [filter_bne_range_of_lt n j hj]
  rcases lt_or_ge y j with h | h
  · rw [if_pos h, List.getD_eq_getElem?_getD, List.getElem?_append, List.length_range,
      if_pos h, List.getElem?_range h]
    rfl
  · rw [if_neg (by omega), List.getD_eq_getElem?_getD, List.getElem?_append,
      List.length_range, if_neg (by omega), List.getElem?_range' (j + 1) 1 (by omega)]
    simp only [Option.getD_some]
    omega

theorem minor_length (m : List (List ℚ)) (i j : ℕ) (h : i < m.length) :
    (minor m i j).length = m.length - 1 := by
  rw [minor, List.length_map, length_filter_bne_range _ _ h]

theorem minor_isRect (m : List (List ℚ)) (N : ℕ) (hm : IsRect m (N + 1) (N + 1))
    (i j : ℕ) (hi : i < N + 1) (hj : j < N + 1) :
    IsRect (minor m i j) N N := by
  constructor
  · rw [minor_length m i j (by rw [hm.1]; exact hi), hm.1]
    omega
  · intro row hrow
    rw [minor] at hrow
    obtain ⟨x, _, rfl⟩ := List.mem_map.1 hrow
    rw [List.length_map, hm.headD_length (by omega), length_filter_bne_range _ _ hj]
    omega

theorem entry_minor (m : List (List ℚ)) (N : ℕ) (hm : IsRect m (N + 1) (N + 1))
    (i j : ℕ) (hi : i < N + 1) (hj : j < N + 1) (x y : ℕ) (hx : x < N) (hy : y < N) :
    entry (minor m i j) x y =
      entry m (if x < i then x else x + 1) (if y < j then y else y + 1) := by
  have hxlen : x < ((List.range m.length).filter fun t => t != i).length := by
    rw [hm.1, length_filter_bne_range _ _ hi]
    omega
  have hylen : y < ((List.range (m.headD []).length).filter fun t => t != j).length := by
    rw [hm.headD_length (by omega), length_filter_bne_range _ _ hj]
    omega
  have hxval : ((List.range m.length).filter fun t => t != i).getD x 0 =
      if x < i then x else x + 1 := by
    rw [hm.1]
    exact getD_filter_bne_range (N + 1) i x hi (by omega)
  have hyval : ((List.range (m.headD []).length).filter fun t => t != j).getD y 0 =
      if y < j then y else y + 1 := by
    rw [hm.headD_length (by omega)]
    exact getD_filter_bne_range (N + 1) j y hj (by omega)
  have h1 : (minor m i j).getD x [] =
      ((List.range (m.headD []).length).filter fun t => t != j).map
        (fun t => entry m (((List.range m.length).filter fun t => t != i).getD x 0) t) := by
    rw [minor, getD_eq_getElem_of_lt _ _ x (by simpa using hxlen), List.getElem_map,
      getD_eq_getElem_of_lt _ 0 x hxlen]
  rw [entry, h1, getD_eq_getElem_of_lt _ _ y (by simpa using hylen), List.getElem_map,
    ← getD_eq_getElem_of_lt _ 0 y hylen, hxval, hyval]

theorem toMat_minor (m : List (List ℚ)) (N : ℕ) (hm : IsRect m (N + 1) (N + 1))
    (i j : Fin (N + 1)) :
    toMat (minor m (i : ℕ) (j : ℕ)) N N =
      (toMat m (N + 1) (N + 1)).submatrix i.succAbove j.succAbove := by
  funext x y
  rw [toMat, Matrix.of_apply,
    entry_minor m N hm i j i.isLt j.isLt x y x.isLt y.isLt,
    Matrix.submatrix_apply, toMat, Matrix.of_apply]
  have hrow : ((i.succAbove x : Fin (N + 1)) : ℕ) = if (x : ℕ) < (i : ℕ) then (x : ℕ) else (x : ℕ) + 1 := by
    rcases lt_or_ge (x : ℕ) (i : ℕ) with h | h
    · rw [if_pos h, Fin.succAbove_of_castSucc_lt _ _ (by rw [Fin.lt_def, Fin.coe_castSucc]; exact h),
        Fin.coe_castSucc]
    · rw [if_neg (by omega), Fin.succAbove_of_le_castSucc _ _ (by rw [Fin.le_def, Fin.coe_castSucc]; exact h),
        Fin.val_succ]
  have hcol : ((j.succAbove y : Fin (N + 1)) : ℕ) = if (y : ℕ) < (j : ℕ) then (y : ℕ) else (y : ℕ) + 1 := by
    rcases lt_or_ge (y : ℕ) (j : ℕ) with h | h
    · rw [if_pos h, Fin.succAbove_of_castSucc_lt _ _ (by rw [Fin.lt_def, Fin.coe_castSucc]; exact h),
        Fin.coe_castSucc]
    · rw [if_neg (by omega), Fin.succAbove_of_le_castSucc _ _ (by rw [Fin.le_def, Fin.coe_castSucc]; exact h),
        Fin.val_succ]
  rw [hrow, hcol]

theorem determinant_unfold (m : List (List ℚ)) :
    determinant m =
      if m.length = 1 ∧ (m.headD []).length = 1 then entry m 0 0
      else if m.length = 2 ∧ (m.headD []).length = 2 then
        fsub (fmul (entry m 0 0) (entry m 1 1)) (fmul (entry m 0 1) (entry m 1 0))
      else
        fsum ((List.range m.length).map fun i =>
          fmul (fmul (intFrac ((-1) ^ i)) (entry m 0 i)) (determinant (minor m 0 i))) := by
  rw [determinant]
  by_cases hm0 : m.length = 0
  · rw [hm0]
    have h0 : detAux 0 m = 0 := rfl
    rw [h0, if_neg (by omega), if_neg (by omega), List.range_zero, List.map_nil]
    rfl
  · obtain ⟨len, hm⟩ : ∃ len, m.length = len + 1 := ⟨m.length - 1, by omega⟩
    have h1 : detAux m.length m = detAux (len + 1) m := by rw [hm]
    have h2 : detAux (len + 1) m =
        (if m.length = 1 ∧ (m.headD []).length = 1 then entry m 0 0
        else if m.length = 2 ∧ (m.headD []).length = 2 then
          fsub (fmul (entry m 0 0) (entry m 1 1)) (fmul (entry m 0 1) (entry m 1 0))
        else
          fsum ((List.range m.length).map fun i =>
            fmul (fmul (intFrac ((-1) ^ i)) (entry m 0 i)) (detAux len (minor m 0 i)))) := rfl
    rw [h1, h2]
    by_cases hc1 : m.length = 1 ∧ (m.headD []).length = 1
    · rw [if_pos hc1, if_pos hc1]
    · rw [if_neg hc1, if_neg hc1]
      by_cases hc2 : m.length = 2 ∧ (m.headD []).length = 2
      · rw [if_pos hc2, if_pos hc2]
      · rw [if_neg hc2, if_neg hc2]
        refine congrArg fsum (List.map_congr_left fun i _ => ?_)
        refine congrArg _ ?_
        rw [determinant, minor_length m 0 i (by omega), hm, Nat.add_sub_cancel]

theorem determinant_eq_det (n : ℕ) :
    ∀ (m : List (List ℚ)), IsRect m (n + 1) (n + 1) →
      determinant m = (toMat m (n + 1) (n + 1)).det := by
  induction n with
  | zero =>
    intro m hm
    rw [determinant_unfold, if_pos ⟨hm.1, hm.headD_length (by omega)⟩, Matrix.det_fin_one]
    rfl
  | succ k ih =>
    intro m hm
    cases k with
    | zero =>
      rw [determinant_unfold, if_neg (by rw [hm.1]; omega),
        if_pos ⟨hm.1, hm.headD_length (by omega)⟩, Matrix.det_fin_two, fsub_eq, fmul_eq, fmul_eq]
      rfl
    | succ k' =>
      rw [determinant_unfold, if_neg (by rw [hm.1]; omega), if_neg (by rw [hm.1]; omega),
        hm.1, fsum_map_range, Matrix.det_succ_row_zero]
      apply Finset.sum_congr rfl
      intro j _
      rw [fmul_eq, fmul_eq, intFrac_eq]
      have hminor : determinant (minor m 0 (j : ℕ)) =
          ((toMat m (k' + 1 + 1 + 1) (k' + 1 + 1 + 1)).submatrix Fin.succ j.succAbove).det := by
        rw [ih (minor m 0 (j : ℕ)) (minor_isRect m (k' + 1 + 1) hm 0 (j : ℕ) (by omega) j.isLt)]
        have h0 : (0 : ℕ) = ((0 : Fin (k' + 1 + 1 + 1)) : ℕ) := rfl
        rw [h0, toMat_minor m (k' + 1 + 1) hm 0 j, Fin.succAbove_zero]
      rw [hminor]
      have hA : toMat m (k' + 1 + 1 + 1) (k' + 1 + 1 + 1) 0 j = entry m 0 (j : ℕ) := rfl
      rw [hA]
      push_cast
      ring

/-! ### The list adjoint computes the Mathlib adjugate, and `inverse` the
Mathlib inverse -/

theorem adjugate_entry (n : ℕ) (A : Matrix (Fin (n + 1)) (Fin (n + 1)) ℚ) (i j : Fin (n + 1)) :
    A.adjugate i j =
      (-1 : ℚ) ^ ((i : ℕ) + (j : ℕ)) * (A.submatrix j.succAbove i.succAbove).det := by
  rw [Matrix.adjugate_apply, Matrix.det_succ_row _ j, Finset.sum_eq_single i]
  · have hsub : ((A.updateRow j (Pi.single i 1)).submatrix j.succAbove i.succAbove) =
        A.submatrix j.succAbove i.succAbove := by
      funext x y
      rw [Matrix.submatrix_apply, Matrix.submatrix_apply,
        Matrix.updateRow_ne (Fin.succAbove_ne j x)]
    rw [hsub, Matrix.updateRow_self, Pi.single_eq_same, Nat.add_comm (j : ℕ) (i : ℕ)]
    ring
  · intro c _ hc
    rw [Matrix.updateRow_self, Pi.single_eq_of_ne hc]
    ring
  · intro h
    exact absurd (Finset.mem_univ i) h

theorem transpose_isRect (m : List (List ℚ)) (r c : ℕ) (hm : IsRect m r c) (hr : 0 < r) :
    IsRect (transpose m) c r := by
  rw [transpose, hm.headD_length hr, hm.1]
  exact isRect_map_range' c r _

theorem entry_transpose (m : List (List ℚ)) (r c : ℕ) (hm : IsRect m r c) (hr : 0 < r)
    (i j : ℕ) (hi : i < c) (hj : j < r) :
    entry (transpose m) i j = entry m j i := by
  rw [transpose, hm.headD_length hr, hm.1, entry_map_range c r _ i j hi hj]

theorem cofactor_isRect (m : List (List ℚ)) (r c : ℕ) (hm : IsRect m r c) (hr : 0 < r) :
    IsRect (cofactor m) r c := by
  rw [cofactor, hm.1, hm.headD_length hr]
  exact isRect_map_range' r c _

theorem entry_cofactor (m : List (List ℚ)) (r c : ℕ) (hm : IsRect m r c) (hr : 0 < r)
    (i j : ℕ) (hi : i < r) (hj : j < c) :
    entry (cofactor m) i j = fmul (intFrac ((-1) ^ (i + j))) (determinant (minor m i j)) := by
  rw [cofactor, hm.1, hm.headD_length hr, entry_map_range r c _ i j hi hj]

theorem toMat_adjoint (m : List (List ℚ)) (k : ℕ) (hm : IsRect m (k + 1 + 1) (k + 1 + 1)) :
    IsRect (adjoint m) (k + 1 + 1) (k + 1 + 1) ∧
    toMat (adjoint m) (k + 1 + 1) (k + 1 + 1) = (toMat m (k + 1 + 1) (k + 1 + 1)).adjugate := by
  have hcof := cofactor_isRect m (k + 1 + 1) (k + 1 + 1) hm (by omega)
  have hrect : IsRect (adjoint m) (k + 1 + 1) (k + 1 + 1) := by
    rw [adjoint]
    exact transpose_isRect _ _ _ hcof (by omega)
  refine ⟨hrect, ?_⟩
  funext i j
  rw [toMat, Matrix.of_apply, adjoint,
    entry_transpose (cofactor m) (k + 1 + 1) (k + 1 + 1) hcof (by omega) i j i.isLt j.isLt,
    entry_cofactor m (k + 1 + 1) (k + 1 + 1) hm (by omega) j i j.isLt i.isLt,
    adjugate_entry (k + 1) (toMat m (k + 1 + 1) (k + 1 + 1)) i j,
    fmul_eq, intFrac_eq]
  have hdet : determinant (minor m (j : ℕ) (i : ℕ)) =
      ((toMat m (k + 1 + 1) (k + 1 + 1)).submatrix j.succAbove i.succAbove).det := by
    rw [determinant_eq_det k _ (minor_isRect m (k + 1) hm (j : ℕ) (i : ℕ) j.isLt i.isLt),
      toMat_minor m (k + 1) hm j i]
  rw [hdet]
  push_cast
  rw [Nat.add_comm (j : ℕ) (i : ℕ)]

theorem inverse_isRect_toMat (m : List (List ℚ)) (n : ℕ) (hm : IsRect m (n + 1) (n + 1))
    (hdet : determinant m ≠ 0) :
    IsRect (inverse m) (n + 1) (n + 1) ∧
    toMat (inverse m) (n + 1) (n + 1) = (toMat m (n + 1) (n + 1))⁻¹ := by
  cases n with
  | zero =>
    have h1 : inverse m = [[finv (determinant m)]] := by
      simp only [inverse]
      rw [if_pos ⟨hm.1, hm.headD_length (by omega)⟩]
    constructor
    · rw [h1]
      refine ⟨rfl, fun row hrow => ?_⟩
      rw [List.mem_singleton.1 hrow]
      rfl
    · rw [h1]
      funext i j
      have hi0 : (i : ℕ) = 0 := by omega
      have hj0 : (j : ℕ) = 0 := by omega
      have hL : toMat [[finv (determinant m)]] (0 + 1) (0 + 1) i j = finv (determinant m) := by
        rw [toMat, Matrix.of_apply, hi0, hj0]
        rfl
      rw [hL, Matrix.inv_def, Ring.inverse_eq_inv, Matrix.smul_apply,
        adjugate_entry 0 (toMat m (0 + 1) (0 + 1)) i j, hi0, hj0, Matrix.det_fin_zero,
        finv_eq, determinant_eq_det 0 m hm]
      simp
  | succ k =>
    cases k with
    | zero =>
      have h1 : inverse m = scalarMultiply
          [[entry m 1 1, fneg (entry m 0 1)], [fneg (entry m 1 0), entry m 0 0]]
          (finv (determinant m)) := by
        simp only [inverse]
        rw [if_neg (by rw [hm.1]; omega), if_pos ⟨hm.1, hm.headD_length (by omega)⟩]
      have hLrect : IsRect [[entry m 1 1, fneg (entry m 0 1)],
          [fneg (entry m 1 0), entry m 0 0]] (0 + 1 + 1) (0 + 1 + 1) := by
        refine ⟨rfl, fun row hrow => ?_⟩
        simp only [List.mem_cons, List.mem_singleton, List.not_mem_nil, or_false] at hrow
        rcases hrow with rfl | rfl <;> rfl
      constructor
      · rw [h1]
        exact scalarMultiply_isRect _ _ _ hLrect _
      · rw [h1, toMat_scalarMultiply _ _ _ hLrect, Matrix.inv_def, Ring.inverse_eq_inv,
          finv_eq, determinant_eq_det 1 m hm]
        congr 1
        funext i j
        rw [toMat, Matrix.of_apply, adjugate_entry 1 (toMat m (0 + 1 + 1) (0 + 1 + 1)) i j,
          Matrix.det_fin_one, Matrix.submatrix_apply]
        fin_cases i <;> fin_cases j <;>
          simp [entry, toMat, fneg_eq, Fin.succAbove] <;> ring
    | succ k' =>
      have hadj := toMat_adjoint m (k' + 1) hm
      have h1 : inverse m = scalarMultiply (adjoint m) (finv (determinant m)) := by
        simp only [inverse]
        rw [if_neg (by rw [hm.1]; omega), if_neg (by rw [hm.1]; omega)]
      constructor
      · rw [h1]
        exact scalarMultiply_isRect _ _ _ hadj.1 _
      · rw [h1, toMat_scalarMultiply _ _ _ hadj.1, hadj.2, Matrix.inv_def,
          Ring.inverse_eq_inv, finv_eq, determinant_eq_det _ m hm]

/-- C5: for every non-singular square list matrix, the product with its
computed inverse is the identity matrix of the same size (exact rational
equality of the list representations). -/
theorem matrix_times_inverse_eq_identity (m : List (List ℚ)) (n : ℕ)
    (hm : IsRect m n n) (hdet : determinant m ≠ 0) :
    matrixMultiply m (inverse m) = identityMatrix n := by
  cases n with
  | zero =>
    exfalso
    have hnil : m = [] := List.length_eq_zero.1 hm.1
    subst hnil
    exact hdet rfl
  | succ n =>
    obtain ⟨hinvRect, hinvMat⟩ := inverse_isRect_toMat m n hm hdet
    have hdetA : (toMat m (n + 1) (n + 1)).det ≠ 0 := by
      rw [← determinant_eq_det n m hm]
      exact hdet
    have hmulRect := matrixMultiply_isRect m (inverse m) (n + 1) (n + 1) (n + 1) hm hinvRect
      (by omega)
    apply eq_of_isRect_entry _ _ (n + 1) (n + 1) hmulRect (identityMatrix_isRect (n + 1))
    intro i j hi hj
    have hone : toMat (matrixMultiply m (inverse m)) (n + 1) (n + 1) = 1 := by
      rw [toMat_matrixMultiply m (inverse m) (n + 1) (n + 1) (n + 1) hm hinvRect (by omega),
        hinvMat, Matrix.mul_nonsing_inv _ (isUnit_iff_ne_zero.2 hdetA)]
    have h1 : entry (matrixMultiply m (inverse m)) i j =
        toMat (matrixMultiply m (inverse m)) (n + 1) (n + 1) ⟨i, hi⟩ ⟨j, hj⟩ := rfl
    rw [h1, hone, entry_identityMatrix (n + 1) i j hi hj, Matrix.one_apply]
    by_cases hij : i = j
    · rw [if_pos hij, if_pos (by simpa [Fin.ext_iff] using hij)]
    · rw [if_neg (by simpa [Fin.ext_iff] using hij), if_neg hij]

/-- Witness for C5 at a concrete non-singular `3×3` matrix (which exercises
the general cofactor-based inverse). -/
theorem matrix_times_inverse_eq_identity_witness :
    (IsRect [[(1 : ℚ), 2, 0], [0, 1, 0], [4, 0, 1]] 3 3 ∧
      determinant [[(1 : ℚ), 2, 0], [0, 1, 0], [4, 0, 1]] ≠ 0) ∧
    matrixMultiply [[(1 : ℚ), 2, 0], [0, 1, 0], [4, 0, 1]]
        (inverse [[(1 : ℚ), 2, 0], [0, 1, 0], [4, 0, 1]]) = identityMatrix 3 :=
  ⟨⟨⟨by decide, by decide⟩, by decide⟩,
    matrix_times_inverse_eq_identity _ 3 ⟨by decide, by decide⟩ (by decide)⟩

/-! ### Substochastic matrices: if every index can reach a leaking row along
positive entries, then `1 - Q` is non-singular and its inverse is entrywise
non-negative.  This is the linear-algebra core behind C1. -/

theorem powEntry_nonneg {t : ℕ} (Q : Matrix (Fin t) (Fin t) ℚ)
    (hQ0 : ∀ i j, 0 ≤ Q i j) (k : ℕ) : ∀ i j, 0 ≤ (Q ^ k) i j := by
  induction k with
  | zero =>
    intro i j
    rw [pow_zero]
    by_cases h : i = j
    · rw [h, Matrix.one_apply_eq]
      norm_num
    · rw [Matrix.one_apply_ne h]
  | succ k ih =>
    intro i j
    rw [pow_succ, Matrix.mul_apply]
    exact Finset.sum_nonneg fun l _ => mul_nonneg (ih i l) (hQ0 l j)

theorem rowSum_add {t : ℕ} (Q : Matrix (Fin t) (Fin t) ℚ) (a b : ℕ) (i : Fin t) :
    ∑ j, (Q ^ (a + b)) i j = ∑ l, (Q ^ a) i l * ∑ j, (Q ^ b) l j := by
  rw [pow_add]
  simp only [Matrix.mul_apply]
  rw [Finset.sum_comm]
  exact Finset.sum_congr rfl fun l _ => (Finset.mul_sum _ _ _).symm

theorem rowSum_succ {t : ℕ} (Q : Matrix (Fin t) (Fin t) ℚ) (k : ℕ) (i : Fin t) :
    ∑ j, (Q ^ (k + 1)) i j = ∑ l, Q i l * ∑ j, (Q ^ k) l j := by
  have h := rowSum_add Q 1 k i
  simp only [pow_one] at h
  rwa [Nat.add_comm 1 k] at h

theorem rowSum_pow_zero {t : ℕ} (Q : Matrix (Fin t) (Fin t) ℚ) (i : Fin t) :
    ∑ j, (Q ^ 0) i j = 1 := by
  simp [pow_zero, Matrix.one_apply]

theorem rowSum_pow_nonneg {t : ℕ} (Q : Matrix (Fin t) (Fin t) ℚ)
    (hQ0 : ∀ i j, 0 ≤ Q i j) (k : ℕ) (i : Fin t) : 0 ≤ ∑ j, (Q ^ k) i j :=
  Finset.sum_nonneg fun j _ => powEntry_nonneg Q hQ0 k i j

theorem rowSum_pow_le_one {t : ℕ} (Q : Matrix (Fin t) (Fin t) ℚ)
    (hQ0 : ∀ i j, 0 ≤ Q i j) (hQ1 : ∀ i, ∑ j, Q i j ≤ 1) (k : ℕ) :
    ∀ i, ∑ j, (Q ^ k) i j ≤ 1 := by
  induction k with
  | zero =>
    intro i
    rw [rowSum_pow_zero]
  | succ k ih =>
    intro i
    rw [rowSum_succ]
    calc ∑ l, Q i l * ∑ j, (Q ^ k) l j ≤ ∑ l, Q i l * 1 :=
          Finset.sum_le_sum fun l _ => mul_le_mul_of_nonneg_left (ih l) (hQ0 i l)
      _ = ∑ l, Q i l := by simp
      _ ≤ 1 := hQ1 i

theorem rowSum_pow_mono {t : ℕ} (Q : Matrix (Fin t) (Fin t) ℚ)
    (hQ0 : ∀ i j, 0 ≤ Q i j) (hQ1 : ∀ i, ∑ j, Q i j ≤ 1) (k : ℕ) :
    ∀ i, ∑ j, (Q ^ (k + 1)) i j ≤ ∑ j, (Q ^ k) i j := by
  induction k with
  | zero =>
    intro i
    rw [rowSum_pow_zero]
    exact rowSum_pow_le_one Q hQ0 hQ1 1 i
  | succ k ih =>
    intro i
    rw [rowSum_succ Q (k + 1) i, rowSum_succ Q k i]
    exact Finset.sum_le_sum fun l _ => mul_le_mul_of_nonneg_left (ih l) (hQ0 i l)

theorem rowSum_pow_anti {t : ℕ} (Q : Matrix (Fin t) (Fin t) ℚ)
    (hQ0 : ∀ i j, 0 ≤ Q i j) (hQ1 : ∀ i, ∑ j, Q i j ≤ 1) {k k' : ℕ} (h : k ≤ k')
    (i : Fin t) : ∑ j, (Q ^ k') i j ≤ ∑ j, (Q ^ k) i j := by
  induction h with
  | refl => exact le_refl _
  | step h ih => exact le_trans (rowSum_pow_mono Q hQ0 hQ1 _ i) ih

theorem rowSum_lt_one_step {t : ℕ} (Q : Matrix (Fin t) (Fin t) ℚ)
    (hQ0 : ∀ i j, 0 ≤ Q i j) (hQ1 : ∀ i, ∑ j, Q i j ≤ 1) {i v : Fin t}
    (hiv : 0 < Q i v) {k : ℕ} (hv : ∑ j, (Q ^ k) v j < 1) :
    ∑ j, (Q ^ (k + 1)) i j < 1 := by
  rw [rowSum_succ]
  calc ∑ l, Q i l * ∑ j, (Q ^ k) l j < ∑ l, Q i l := by
        apply Finset.sum_lt_sum
        · intro l _
          calc Q i l * ∑ j, (Q ^ k) l j ≤ Q i l * 1 :=
                mul_le_mul_of_nonneg_left (rowSum_pow_le_one Q hQ0 hQ1 k l) (hQ0 i l)
            _ = Q i l := mul_one _
        · refine ⟨v, Finset.mem_univ v, ?_⟩
          calc Q i v * ∑ j, (Q ^ k) v j < Q i v * 1 := by
                exact mul_lt_mul_of_pos_left hv hiv
            _ = Q i v := mul_one _
    _ ≤ 1 := hQ1 i

theorem exists_rowSum_pow_lt_one {t : ℕ} (Q : Matrix (Fin t) (Fin t) ℚ)
    (hQ0 : ∀ i j, 0 ≤ Q i j) (hQ1 : ∀ i, ∑ j, Q i j ≤ 1)
    (hreach : ∀ i : Fin t, ∃ l, Relation.ReflTransGen (fun x y => 0 < Q x y) i l ∧
      ∑ j, Q l j < 1) (i : Fin t) :
    ∃ k, ∑ j, (Q ^ k) i j < 1 := by
  obtain ⟨l, hpath, hl⟩ := hreach i
  induction hpath using Relation.ReflTransGen.head_induction_on with
  | refl => exact ⟨1, by simpa only [pow_one] using hl⟩
  | head hstep _ ih =>
    obtain ⟨k, hk⟩ := ih
    exact ⟨k + 1, rowSum_lt_one_step Q hQ0 hQ1 hstep hk⟩

theorem exists_uniform_decay {t : ℕ} (Q : Matrix (Fin t) (Fin t) ℚ)
    (hQ0 : ∀ i j, 0 ≤ Q i j) (hQ1 : ∀ i, ∑ j, Q i j ≤ 1)
    (hreach : ∀ i : Fin t, ∃ l, Relation.ReflTransGen (fun x y => 0 < Q x y) i l ∧
      ∑ j, Q l j < 1) (ht : 0 < t) :
    ∃ (K : ℕ) (r : ℚ), 0 ≤ r ∧ r < 1 ∧
      ∀ (m : ℕ) (i : Fin t), ∑ j, (Q ^ (m * K)) i j ≤ r ^ m := by
  choose k hk using exists_rowSum_pow_lt_one Q hQ0 hQ1 hreach
  obtain ⟨K, hKle⟩ : ∃ K, ∀ i : Fin t, k i ≤ K :=
    ⟨Finset.univ.sup k, fun i => Finset.le_sup (Finset.mem_univ i)⟩
  have hKlt : ∀ i : Fin t, ∑ j, (Q ^ K) i j < 1 := fun i =>
    lt_of_le_of_lt (rowSum_pow_anti Q hQ0 hQ1 (hKle i) i) (hk i)
  have hne : (Finset.univ : Finset (Fin t)).Nonempty := ⟨⟨0, ht⟩, Finset.mem_univ _⟩
  obtain ⟨imax, _, hmax⟩ := Finset.exists_mem_eq_sup' hne fun i => ∑ j, (Q ^ K) i j
  have hrle : ∀ i : Fin t, ∑ j, (Q ^ K) i j ≤ ∑ j, (Q ^ K) imax j := by
    intro i
    rw [← hmax]
    exact Finset.le_sup' (fun i => ∑ j, (Q ^ K) i j) (Finset.mem_univ i)
  have hr0 : (0 : ℚ) ≤ ∑ j, (Q ^ K) imax j := rowSum_pow_nonneg Q hQ0 K imax
  refine ⟨K, ∑ j, (Q ^ K) imax j, hr0, hKlt imax, ?_⟩
  intro m
  induction m with
  | zero =>
    intro i
    rw [Nat.zero_mul, rowSum_pow_zero, pow_zero]
  | succ m ih =>
    intro i
    have hsplit : (m + 1) * K = K + m * K := by ring
    rw [hsplit, rowSum_add]
    calc ∑ l, (Q ^ K) i l * ∑ j, (Q ^ (m * K)) l j
        ≤ ∑ l, (Q ^ K) i l * (∑ j, (Q ^ K) imax j) ^ m :=
          Finset.sum_le_sum fun l _ =>
            mul_le_mul_of_nonneg_left (ih l) (powEntry_nonneg Q hQ0 K i l)
      _ = (∑ l, (Q ^ K) i l) * (∑ j, (Q ^ K) imax j) ^ m := (Finset.sum_mul _ _ _).symm
      _ ≤ (∑ j, (Q ^ K) imax j) * (∑ j, (Q ^ K) imax j) ^ m :=
          mul_le_mul_of_nonneg_right (hrle i) (pow_nonneg hr0 m)
      _ = (∑ j, (Q ^ K) imax j) ^ (m + 1) := (pow_succ' _ m).symm

theorem det_one_sub_ne_zero {t : ℕ} (Q : Matrix (Fin t) (Fin t) ℚ)
    (hQ0 : ∀ i j, 0 ≤ Q i j) (hQ1 : ∀ i, ∑ j, Q i j ≤ 1)
    (hreach : ∀ i : Fin t, ∃ l, Relation.ReflTransGen (fun x y => 0 < Q x y) i l ∧
      ∑ j, Q l j < 1) :
    (1 - Q).det ≠ 0 := by
  rcases Nat.eq_zero_or_pos t with ht0 | ht
  · subst ht0
    rw [Matrix.det_isEmpty]
    exact one_ne_zero
  · intro hdet
    obtain ⟨v, hv0, hv⟩ := Matrix.exists_mulVec_eq_zero_iff.2 hdet
    have hQv : Q.mulVec v = v := by
      have h1 : (1 - Q).mulVec v = (1 : Matrix (Fin t) (Fin t) ℚ).mulVec v - Q.mulVec v := Matrix.sub_mulVec 1 Q v
      rw [Matrix.one_mulVec, hv] at h1
      exact (sub_eq_zero.1 h1.symm).symm
    have hQkv : ∀ k, (Q ^ k).mulVec v = v := by
      intro k
      induction k with
      | zero => rw [pow_zero, Matrix.one_mulVec]
      | succ k ih => rw [pow_succ, ← Matrix.mulVec_mulVec, hQv, ih]
    obtain ⟨K, hK⟩ : ∃ K, ∀ i : Fin t, ∑ j, (Q ^ K) i j < 1 := by
      choose k hk using exists_rowSum_pow_lt_one Q hQ0 hQ1 hreach
      exact ⟨Finset.univ.sup k, fun i =>
        lt_of_le_of_lt (rowSum_pow_anti Q hQ0 hQ1 (Finset.le_sup (Finset.mem_univ i)) i)
          (hk i)⟩
    have hne : (Finset.univ : Finset (Fin t)).Nonempty := ⟨⟨0, ht⟩, Finset.mem_univ _⟩
    obtain ⟨imax, _, hmax⟩ := Finset.exists_mem_eq_sup' hne fun i => |v i|
    have hCle : ∀ i, |v i| ≤ |v imax| := by
      intro i
      rw [← hmax]
      exact Finset.le_sup' (fun i => |v i|) (Finset.mem_univ i)
    have hCpos : 0 < |v imax| := by
      obtain ⟨iw, hiw⟩ := Function.ne_iff.1 hv0
      exact lt_of_lt_of_le (abs_pos.2 hiw) (hCle iw)
    have hvK : v imax = ((Q ^ K).mulVec v) imax := by rw [hQkv]
    have habs : |v imax| ≤ (∑ j, (Q ^ K) imax j) * |v imax| := by
      nth_rewrite 1 [hvK]
      calc |((Q ^ K).mulVec v) imax| = |∑ j, (Q ^ K) imax j * v j| := by
            rw [Matrix.mulVec, Matrix.dotProduct]
        _ ≤ ∑ j, |(Q ^ K) imax j * v j| := Finset.abs_sum_le_sum_abs _ _
        _ = ∑ j, (Q ^ K) imax j * |v j| := Finset.sum_congr rfl fun j _ => by
            rw [abs_mul, abs_of_nonneg (powEntry_nonneg Q hQ0 K imax j)]
        _ ≤ ∑ j, (Q ^ K) imax j * |v imax| := Finset.sum_le_sum fun j _ =>
            mul_le_mul_of_nonneg_left (hCle j) (powEntry_nonneg Q hQ0 K imax j)
        _ = (∑ j, (Q ^ K) imax j) * |v imax| := (Finset.sum_mul _ _ _).symm
    have hlt : (∑ j, (Q ^ K) imax j) * |v imax| < 1 * |v imax| :=
      mul_lt_mul_of_pos_right (hK imax) hCpos
    rw [one_mul] at hlt
    exact absurd (lt_of_le_of_lt habs hlt) (lt_irrefl _)

theorem inv_one_sub_nonneg {t : ℕ} (Q : Matrix (Fin t) (Fin t) ℚ)
    (hQ0 : ∀ i j, 0 ≤ Q i j) (hQ1 : ∀ i, ∑ j, Q i j ≤ 1)
    (hreach : ∀ i : Fin t, ∃ l, Relation.ReflTransGen (fun x y => 0 < Q x y) i l ∧
      ∑ j, Q l j < 1) :
    ∀ i j, 0 ≤ (1 - Q)⁻¹ i j := by
  rcases Nat.eq_zero_or_pos t with ht0 | ht
  · subst ht0
    intro i
    exact i.elim0
  · intro i j
    have hdet := det_one_sub_ne_zero Q hQ0 hQ1 hreach
    have hu : IsUnit (1 - Q).det := isUnit_iff_ne_zero.2 hdet
    have hNr : (1 - Q) * (1 - Q)⁻¹ = 1 := Matrix.mul_nonsing_inv _ hu
    have hN1 : (1 - Q)⁻¹ = 1 + Q * (1 - Q)⁻¹ := by
      have h2 : (1 - Q)⁻¹ - Q * (1 - Q)⁻¹ = 1 := by
        have h := hNr
        rwa [sub_mul, one_mul] at h
      have h3 := eq_add_of_sub_eq' h2
      rwa [add_comm] at h3
    have hunfold : ∀ m, (1 - Q)⁻¹ = (∑ k ∈ Finset.range m, Q ^ k) + Q ^ m * (1 - Q)⁻¹ := by
      intro m
      induction m with
      | zero => simp
      | succ m ih =>
        calc (1 - Q)⁻¹ = (∑ k ∈ Finset.range m, Q ^ k) + Q ^ m * (1 - Q)⁻¹ := ih
          _ = (∑ k ∈ Finset.range m, Q ^ k) + Q ^ m * (1 + Q * (1 - Q)⁻¹) := by rw [← hN1]
          _ = (∑ k ∈ Finset.range (m + 1), Q ^ k) + Q ^ (m + 1) * (1 - Q)⁻¹ := by
              rw [mul_add, mul_one, ← Matrix.mul_assoc, ← pow_succ, Finset.sum_range_succ,
                add_assoc]
    have hC0 : 0 ≤ ∑ l, ∑ j', |(1 - Q)⁻¹ l j'| :=
      Finset.sum_nonneg fun l _ => Finset.sum_nonneg fun j' _ => abs_nonneg _
    have habs : ∀ l j', |(1 - Q)⁻¹ l j'| ≤ ∑ l, ∑ j', |(1 - Q)⁻¹ l j'| := by
      intro l j'
      calc |(1 - Q)⁻¹ l j'| ≤ ∑ j'', |(1 - Q)⁻¹ l j''| :=
            @Finset.single_le_sum (Fin t) ℚ _ (fun j'' => |(1 - Q)⁻¹ l j''|) Finset.univ
              (fun _ _ => abs_nonneg _) j' (Finset.mem_univ j')
        _ ≤ ∑ l', ∑ j'', |(1 - Q)⁻¹ l' j''| :=
            @Finset.single_le_sum (Fin t) ℚ _ (fun l' => ∑ j'', |(1 - Q)⁻¹ l' j''|) Finset.univ
              (fun _ _ => Finset.sum_nonneg fun _ _ => abs_nonneg _) l (Finset.mem_univ l)
    have hbound : ∀ m, -((∑ l, (Q ^ m) i l) * ∑ l, ∑ j', |(1 - Q)⁻¹ l j'|) ≤
        (Q ^ m * (1 - Q)⁻¹) i j := by
      intro m
      have h1 : |(Q ^ m * (1 - Q)⁻¹) i j| ≤
          (∑ l, (Q ^ m) i l) * ∑ l, ∑ j', |(1 - Q)⁻¹ l j'| := by
        rw [Matrix.mul_apply]
        calc |∑ l, (Q ^ m) i l * (1 - Q)⁻¹ l j|
            ≤ ∑ l, |(Q ^ m) i l * (1 - Q)⁻¹ l j| := Finset.abs_sum_le_sum_abs _ _
          _ = ∑ l, (Q ^ m) i l * |(1 - Q)⁻¹ l j| := Finset.sum_congr rfl fun l _ => by
              rw [abs_mul, abs_of_nonneg (powEntry_nonneg Q hQ0 m i l)]
          _ ≤ ∑ l, (Q ^ m) i l * ∑ l', ∑ j', |(1 - Q)⁻¹ l' j'| :=
              Finset.sum_le_sum fun l _ =>
                mul_le_mul_of_nonneg_left (habs l j) (powEntry_nonneg Q hQ0 m i l)
          _ = (∑ l, (Q ^ m) i l) * ∑ l', ∑ j', |(1 - Q)⁻¹ l' j'| := (Finset.sum_mul _ _ _).symm
      have h2 := neg_abs_le ((Q ^ m * (1 - Q)⁻¹) i j)
      linarith
    obtain ⟨K, r, hr0, hr1, hdecay⟩ := exists_uniform_decay Q hQ0 hQ1 hreach ht
    have hkey : ∀ m, -(r ^ m * ∑ l, ∑ j', |(1 - Q)⁻¹ l j'|) ≤ (1 - Q)⁻¹ i j := by
      intro m
      have h1 : (1 - Q)⁻¹ i j = (∑ k ∈ Finset.range (m * K), Q ^ k) i j +
          (Q ^ (m * K) * (1 - Q)⁻¹) i j := by
        conv_lhs => rw [hunfold (m * K)]
        rw [Matrix.add_apply]
      have h2 : 0 ≤ (∑ k ∈ Finset.range (m * K), Q ^ k) i j := by
        rw [Matrix.sum_apply]
        exact Finset.sum_nonneg fun k _ => powEntry_nonneg Q hQ0 k i j
      have h3 := hbound (m * K)
      have h4 : (∑ l, (Q ^ (m * K)) i l) * (∑ l, ∑ j', |(1 - Q)⁻¹ l j'|) ≤
          r ^ m * ∑ l, ∑ j', |(1 - Q)⁻¹ l j'| :=
        mul_le_mul_of_nonneg_right (hdecay m i) hC0
      linarith
    by_contra hneg
    push_neg at hneg
    rcases eq_or_lt_of_le hC0 with hC | hC
    · have h5 := hkey 0
      rw [pow_zero, one_mul, ← hC] at h5
      linarith
    · obtain ⟨m, hm⟩ := exists_pow_lt_of_lt_one
        (div_pos (neg_pos.2 hneg) hC) hr1
      rw [lt_div_iff hC] at hm
      have h5 := hkey m
      linarith

/-! ### C1 application layer: facts about `normalize`, the transient and
absorbing index lists, and the `Q`/`R` blocks of a valid input -/

theorem getD_nonneg_of_forall (l : List ℚ) (j : ℕ) (h : ∀ x ∈ l, 0 ≤ x) :
    0 ≤ l.getD j 0 := by
  rcases lt_or_le j l.length with hj | hj
  · exact h _ (getD_mem _ _ _ hj)
  · rw [List.getD_eq_default _ _ hj]

theorem sum_eq_sum_fin_getD (l : List ℚ) : l.sum = ∑ j : Fin l.length, l.getD (j : ℕ) 0 := by
  induction l with
  | nil => simp
  | cons x xs ih =>
    rw [List.sum_cons, List.length_cons, Fin.sum_univ_succ, ih]
    rfl

theorem sum_eq_sum_fin_of_length (l : List ℚ) (a : ℕ) (h : l.length = a) :
    l.sum = ∑ j : Fin a, l.getD (j : ℕ) 0 := by
  subst h
  exact sum_eq_sum_fin_getD l

theorem sum_fin_getD_map (L : List ℕ) (f : ℕ → ℚ) :
    ∑ j : Fin L.length, f (L.getD (j : ℕ) 0) = (L.map f).sum := by
  induction L with
  | nil => simp
  | cons x xs ih =>
    rw [List.map_cons, List.sum_cons, List.length_cons, Fin.sum_univ_succ, ← ih]
    rfl

theorem sum_map_mul_right_rat (l : List ℚ) (b : ℚ) :
    (l.map fun x => x * b).sum = l.sum * b := by
  induction l with
  | nil => simp
  | cons x xs ih => simp [ih, add_mul]

theorem normalize_getD (matrix : List (List ℕ)) (s : ℕ) (hs : s < matrix.length) :
    (normalize matrix).getD s [] =
      if (matrix.getD s []).sum = 0 then (matrix.getD s []).map fun _ => fmk 0 1
      else (matrix.getD s []).map fun c : ℕ => fmk c (matrix.getD s []).sum := by
  rw [getD_eq_getElem_of_lt matrix [] s hs]
  rw [normalize, getD_eq_getElem_of_lt _ _ s (by simpa using hs), List.getElem_map]

theorem normalize_isRect (matrix : List (List ℕ)) (n : ℕ) (h1 : matrix.length = n)
    (h2 : ∀ row ∈ matrix, row.length = n) : IsRect (normalize matrix) n n := by
  constructor
  · rw [normalize_length, h1]
  · intro row hrow
    rw [normalize] at hrow
    obtain ⟨r, hr, rfl⟩ := List.mem_map.1 hrow
    by_cases hz : r.sum = 0
    · rw [if_pos hz, List.length_map]
      exact h2 r hr
    · rw [if_neg hz, List.length_map]
      exact h2 r hr

theorem normalize_entry_nonneg (matrix : List (List ℕ)) (s j : ℕ) :
    0 ≤ entry (normalize matrix) s j := by
  rw [entry]
  apply getD_nonneg_of_forall
  intro x hx
  rcases lt_or_le s matrix.length with hs | hs
  · by_cases hz : (matrix.getD s []).sum = 0
    · rw [normalize_getD matrix s hs, if_pos hz] at hx
      obtain ⟨c, _, rfl⟩ := List.mem_map.1 hx
      rw [fmk_eq]
      norm_num
    · rw [normalize_getD matrix s hs, if_neg hz] at hx
      obtain ⟨c, _, rfl⟩ := List.mem_map.1 hx
      rw [fmk_eq]
      positivity
  · rw [List.getD_eq_default _ _ (by rw [normalize_length]; exact hs)] at hx
    exact absurd hx (List.not_mem_nil x)

theorem sum_map_fmk (r : List ℕ) (S : ℕ) :
    (r.map fun c : ℕ => fmk c S).sum = (r.sum : ℚ) / (S : ℚ) := by
  induction r with
  | nil => simp
  | cons x xs ih =>
    rw [List.map_cons, List.sum_cons, List.sum_cons, ih, fmk_eq]
    push_cast
    ring

theorem normalize_row_sum_one (matrix : List (List ℕ)) (s : ℕ)
    (hs : s < matrix.length) (hz : (matrix.getD s []).sum ≠ 0) :
    ((normalize matrix).getD s []).sum = 1 := by
  rw [normalize_getD matrix s hs, if_neg hz, sum_map_fmk]
  exact div_self (Nat.cast_ne_zero.2 hz)

theorem normalize_all_zero_iff (matrix : List (List ℕ)) (s : ℕ) (hs : s < matrix.length) :
    ((((normalize matrix).getD s []).all fun v => decide (v = 0)) = true) ↔
      (matrix.getD s []).sum = 0 := by
  constructor
  · intro hall
    by_contra hz
    obtain ⟨c, hc, hcne⟩ := sum_ne_zero_exists_ne hz
    have hmem : fmk (c : ℕ) ((matrix.getD s []).sum : ℕ) ∈ (normalize matrix).getD s [] := by
      rw [normalize_getD matrix s hs, if_neg hz]
      exact List.mem_map_of_mem
        (fun numerator : ℕ => fmk (numerator : ℤ) (((matrix.getD s []).sum : ℕ) : ℤ)) hc
    have h2 := List.all_eq_true.1 hall _ hmem
    rw [decide_eq_true_eq] at h2
    exact fmk_ne_zero hcne hz h2
  · intro hz
    rw [normalize_getD matrix s hs, if_pos hz]
    apply List.all_eq_true.2
    intro x hx
    obtain ⟨c, _, rfl⟩ := List.mem_map.1 hx
    rw [decide_eq_true_eq, fmk_eq]
    norm_num

theorem mem_transients_iff (matrix : List (List ℕ)) (s : ℕ) :
    s ∈ transients (normalize matrix) ↔
      s < matrix.length ∧ (matrix.getD s []).sum ≠ 0 := by
  rw [transients, List.mem_filter, List.mem_range, normalize_length]
  constructor
  · rintro ⟨hs, hall⟩
    refine ⟨hs, fun hz => ?_⟩
    rw [Bool.not_eq_true'] at hall
    have h2 := (normalize_all_zero_iff matrix s hs).2 hz
    rw [hall] at h2
    exact Bool.false_ne_true h2
  · rintro ⟨hs, hz⟩
    refine ⟨hs, ?_⟩
    rw [Bool.not_eq_true']
    rcases Bool.eq_false_or_eq_true
        (((normalize matrix).getD s []).all fun v => decide (v = 0)) with h | h
    · exact absurd ((normalize_all_zero_iff matrix s hs).1 h) hz
    · exact h

theorem mem_absorbings_iff (matrix : List (List ℕ)) (s : ℕ) :
    s ∈ absorbings (normalize matrix) ↔
      s < matrix.length ∧ (matrix.getD s []).sum = 0 := by
  rw [absorbings, List.mem_filter, List.mem_range, normalize_length]
  constructor
  · rintro ⟨hs, hall⟩
    exact ⟨hs, (normalize_all_zero_iff matrix s hs).1 hall⟩
  · rintro ⟨hs, hz⟩
    exact ⟨hs, (normalize_all_zero_iff matrix s hs).2 hz⟩

theorem normalize_entry_eq (matrix : List (List ℕ)) (s j : ℕ) (hs : s < matrix.length)
    (hz : (matrix.getD s []).sum ≠ 0) (hj : j < (matrix.getD s []).length) :
    entry (normalize matrix) s j =
      fmk ((matrix.getD s []).getD j 0) ((matrix.getD s []).sum) := by
  rw [entry, normalize_getD matrix s hs, if_neg hz,
    getD_eq_getElem_of_lt _ _ j (by simpa using hj), List.getElem_map,
    getD_eq_getElem_of_lt _ _ j hj]

theorem normalize_entry_pos (matrix : List (List ℕ)) (s j : ℕ) (hs : s < matrix.length)
    (hz : (matrix.getD s []).sum ≠ 0) (hcnt : 0 < (matrix.getD s []).getD j 0) :
    0 < entry (normalize matrix) s j := by
  have hj : j < (matrix.getD s []).length := by
    by_contra hj
    push_neg at hj
    rw [List.getD_eq_default _ _ hj] at hcnt
    exact absurd hcnt (lt_irrefl 0)
  rw [normalize_entry_eq matrix s j hs hz hj, fmk_eq]
  refine div_pos ?_ ?_
  · exact_mod_cast hcnt
  · exact_mod_cast Nat.pos_of_ne_zero hz

theorem transients_append_absorbings_perm (P : List (List ℚ)) :
    (transients P ++ absorbings P).Perm (List.range P.length) := by
  have h2 : absorbings P = (List.range P.length).filter
      fun x => !((fun state => !((P.getD state []).all fun v => decide (v = 0))) x) := by
    rw [absorbings]
    apply List.filter_congr
    intro x _
    exact (Bool.not_not _).symm
  rw [transients, h2]
  exact List.filter_append_perm _ _

theorem row_split (matrix : List (List ℕ)) (n : ℕ)
    (hrect : IsRect (normalize matrix) n n) (s : ℕ) (hsn : s < n) :
    ((transients (normalize matrix)).map fun j => entry (normalize matrix) s j).sum +
      ((absorbings (normalize matrix)).map fun j => entry (normalize matrix) s j).sum =
      ((normalize matrix).getD s []).sum := by
  have hperm := (transients_append_absorbings_perm (normalize matrix)).map
    fun j => entry (normalize matrix) s j
  have hsum := hperm.sum_eq
  rw [List.map_append, List.sum_append] at hsum
  rw [hsum]
  have hlen : (normalize matrix).length = ((normalize matrix).getD s []).length := by
    rw [hrect.1, hrect.row_length hsn]
  rw [hlen]
  simp only [entry]
  exact congrArg List.sum (map_range_getD_id _ 0)

theorem map_map_isRect (L1 L2 : List ℕ) (f : ℕ → ℕ → ℚ) :
    IsRect (L1.map fun s => L2.map fun u => f s u) L1.length L2.length := by
  refine ⟨List.length_map _ _, fun row hrow => ?_⟩
  obtain ⟨s, _, rfl⟩ := List.mem_map.1 hrow
  exact List.length_map _ _

theorem entry_map_map (L1 L2 : List ℕ) (f : ℕ → ℕ → ℚ) (i j : ℕ)
    (hi : i < L1.length) (hj : j < L2.length) :
    entry (L1.map fun s => L2.map fun u => f s u) i j = f (L1.getD i 0) (L2.getD j 0) := by
  rw [entry, getD_eq_getElem_of_lt _ _ i (by simpa using hi), List.getElem_map,
    getD_eq_getElem_of_lt _ _ j (by simpa using hj), List.getElem_map,
    getD_eq_getElem_of_lt L1 0 i hi, getD_eq_getElem_of_lt L2 0 j hj]

theorem qMatrix_isRect (P : List (List ℚ)) :
    IsRect (qMatrix P) (transients P).length (transients P).length := by
  rw [qMatrix]
  exact map_map_isRect _ _ _

theorem rMatrix_isRect (P : List (List ℚ)) :
    IsRect (rMatrix P) (transients P).length (absorbings P).length := by
  rw [rMatrix]
  exact map_map_isRect _ _ _

theorem entry_qMatrix (P : List (List ℚ)) (i j : ℕ)
    (hi : i < (transients P).length) (hj : j < (transients P).length) :
    entry (qMatrix P) i j =
      entry P ((transients P).getD i 0) ((transients P).getD j 0) := by
  rw [qMatrix]
  exact entry_map_map _ _ _ i j hi hj

theorem entry_rMatrix (P : List (List ℚ)) (i j : ℕ)
    (hi : i < (transients P).length) (hj : j < (absorbings P).length) :
    entry (rMatrix P) i j =
      entry P ((transients P).getD i 0) ((absorbings P).getD j 0) := by
  rw [rMatrix]
  exact entry_map_map _ _ _ i j hi hj

theorem getD_indexOf {l : List ℕ} {a : ℕ} (h : a ∈ l) :
    l.getD (l.indexOf a) 0 = a := by
  rw [getD_eq_getElem_of_lt _ _ _ (List.indexOf_lt_length.2 h)]
  exact List.getElem_indexOf _

theorem toMat_qMatrix_apply (P : List (List ℚ))
    (i j : Fin (transients P).length) :
    toMat (qMatrix P) (transients P).length (transients P).length i j =
      entry P ((transients P).getD (i : ℕ) 0) ((transients P).getD (j : ℕ) 0) := by
  rw [toMat, Matrix.of_apply]
  exact entry_qMatrix P i j i.isLt j.isLt

theorem toMat_rMatrix_apply (P : List (List ℚ))
    (i : Fin (transients P).length) (j : Fin (absorbings P).length) :
    toMat (rMatrix P) (transients P).length (absorbings P).length i j =
      entry P ((transients P).getD (i : ℕ) 0) ((absorbings P).getD (j : ℕ) 0) := by
  rw [toMat, Matrix.of_apply]
  exact entry_rMatrix P i j i.isLt j.isLt

theorem qMatrix_row_sum (P : List (List ℚ)) (i : Fin (transients P).length) :
    ∑ j, toMat (qMatrix P) (transients P).length (transients P).length i j =
      ((transients P).map fun u => entry P ((transients P).getD (i : ℕ) 0) u).sum := by
  rw [← sum_fin_getD_map]
  exact Finset.sum_congr rfl fun j _ => toMat_qMatrix_apply P i j

theorem rMatrix_row_sum (P : List (List ℚ)) (i : Fin (transients P).length) :
    ∑ j, toMat (rMatrix P) (transients P).length (absorbings P).length i j =
      ((absorbings P).map fun u => entry P ((transients P).getD (i : ℕ) 0) u).sum := by
  rw [← sum_fin_getD_map]
  exact Finset.sum_congr rfl fun j _ => toMat_rMatrix_apply P i j

theorem step_lt (matrix : List (List ℕ)) (n : ℕ) (h1 : matrix.length = n)
    (h2 : ∀ row ∈ matrix, row.length = n) {x c : ℕ} (hstep : step matrix x c) :
    x < n ∧ c < n := by
  simp only [step] at hstep
  have hx : x < matrix.length := by
    by_contra hx
    push_neg at hx
    rw [List.getD_eq_default _ _ hx, List.getD_nil] at hstep
    exact absurd hstep (lt_irrefl 0)
  have hrow := h2 _ (getD_mem matrix [] x hx)
  have hc : c < n := by
    by_contra hc
    push_neg at hc
    rw [List.getD_eq_default _ _ (by rw [hrow]; exact hc)] at hstep
    exact absurd hstep (lt_irrefl 0)
  exact ⟨by rw [← h1]; exact hx, hc⟩

theorem transient_reaches_leak (matrix : List (List ℕ)) (n : ℕ) (hv : ValidInput matrix n) :
    ∀ s, s ∈ transients (normalize matrix) →
      ∃ l b, l ∈ transients (normalize matrix) ∧
        Relation.ReflTransGen (fun x y => x ∈ transients (normalize matrix) ∧
          y ∈ transients (normalize matrix) ∧ step matrix x y) s l ∧
        step matrix l b ∧ b ∈ absorbings (normalize matrix) := by
  obtain ⟨hlen, hrows, hn, hre⟩ := hv
  intro s hs
  have hsn : s < n := by
    rw [← hlen]
    exact ((mem_transients_iff matrix s).1 hs).1
  obtain ⟨t0, hpath, habs⟩ := hre s hsn
  clear hsn
  revert hs
  induction hpath using Relation.ReflTransGen.head_induction_on with
  | refl =>
    intro hs
    exact absurd habs ((mem_transients_iff matrix _).1 hs).2
  | @head x c hstep hpath ih =>
    intro hs
    obtain ⟨hx, hc⟩ := step_lt matrix n hlen hrows hstep
    by_cases hzc : (matrix.getD c []).sum = 0
    · exact ⟨x, c, hs, Relation.ReflTransGen.refl, hstep,
        (mem_absorbings_iff matrix c).2 ⟨by rw [hlen]; exact hc, hzc⟩⟩
    · have hcT : c ∈ transients (normalize matrix) :=
        (mem_transients_iff matrix c).2 ⟨by rw [hlen]; exact hc, hzc⟩
      obtain ⟨l, b, hlT, hp, hsb, hbA⟩ := ih hcT
      exact ⟨l, b, hlT, Relation.ReflTransGen.head ⟨hs, hcT, hstep⟩ hp, hsb, hbA⟩

theorem qMatrix_pos_of_step (matrix : List (List ℕ)) {x y : ℕ}
    (hxT : x ∈ transients (normalize matrix)) (hstep : step matrix x y)
    (i j : Fin (transients (normalize matrix)).length)
    (hxi : (transients (normalize matrix)).getD (i : ℕ) 0 = x)
    (hyj : (transients (normalize matrix)).getD (j : ℕ) 0 = y) :
    0 < toMat (qMatrix (normalize matrix)) (transients (normalize matrix)).length
      (transients (normalize matrix)).length i j := by
  rw [toMat_qMatrix_apply, hxi, hyj]
  obtain ⟨hxlen, hxz⟩ := (mem_transients_iff matrix x).1 hxT
  simp only [step] at hstep
  exact normalize_entry_pos matrix x y hxlen hxz hstep

theorem transfer_path (matrix : List (List ℕ)) {x l : ℕ}
    (hp : Relation.ReflTransGen (fun x y => x ∈ transients (normalize matrix) ∧
      y ∈ transients (normalize matrix) ∧ step matrix x y) x l)
    (hlT : l ∈ transients (normalize matrix)) :
    ∀ i : Fin (transients (normalize matrix)).length,
      (transients (normalize matrix)).getD (i : ℕ) 0 = x →
      Relation.ReflTransGen (fun p q => 0 < toMat (qMatrix (normalize matrix))
          (transients (normalize matrix)).length
          (transients (normalize matrix)).length p q) i
        ⟨(transients (normalize matrix)).indexOf l, List.indexOf_lt_length.2 hlT⟩ := by
  induction hp using Relation.ReflTransGen.head_induction_on with
  | refl =>
    intro i hi
    have hnd : (transients (normalize matrix)).Nodup := by
      rw [transients]
      exact (List.nodup_range _).filter _
    have hieq : i = (⟨(transients (normalize matrix)).indexOf l,
        List.indexOf_lt_length.2 hlT⟩ : Fin (transients (normalize matrix)).length) := by
      apply Fin.ext
      apply (List.Nodup.getElem_inj_iff hnd).1
      rw [List.getElem_indexOf (List.indexOf_lt_length.2 hlT),
        ← getD_eq_getElem_of_lt _ 0 _ i.isLt]
      exact hi
    rw [hieq]
  | @head a c hstep hpath ih =>
    intro i hi
    obtain ⟨hxT, hcT, hstepxc⟩ := hstep
    have hcidx : (transients (normalize matrix)).indexOf c <
        (transients (normalize matrix)).length := List.indexOf_lt_length.2 hcT
    refine Relation.ReflTransGen.head ?_ (ih ⟨(transients (normalize matrix)).indexOf c, hcidx⟩
      (getD_indexOf hcT))
    exact qMatrix_pos_of_step matrix hxT hstepxc i _ hi (getD_indexOf hcT)

theorem transients_getD_mem (P : List (List ℚ)) (i : Fin (transients P).length) :
    (transients P).getD (i : ℕ) 0 ∈ transients P :=
  getD_mem _ _ _ i.isLt

theorem row_sums_complement (matrix : List (List ℕ)) (n : ℕ)
    (h1 : matrix.length = n) (h2 : ∀ row ∈ matrix, row.length = n)
    (i : Fin (transients (normalize matrix)).length) :
    ∑ j, toMat (qMatrix (normalize matrix)) (transients (normalize matrix)).length
        (transients (normalize matrix)).length i j +
      ∑ j, toMat (rMatrix (normalize matrix)) (transients (normalize matrix)).length
        (absorbings (normalize matrix)).length i j = 1 := by
  have hmem := transients_getD_mem (normalize matrix) i
  obtain ⟨hslen, hsz⟩ := (mem_transients_iff matrix _).1 hmem
  rw [qMatrix_row_sum, rMatrix_row_sum,
    row_split matrix n (normalize_isRect matrix n h1 h2) _ (by rw [← h1]; exact hslen)]
  exact normalize_row_sum_one matrix _ hslen hsz

theorem qMatrix_entry_nonneg (matrix : List (List ℕ))
    (i j : Fin (transients (normalize matrix)).length) :
    0 ≤ toMat (qMatrix (normalize matrix)) (transients (normalize matrix)).length
      (transients (normalize matrix)).length i j := by
  rw [toMat_qMatrix_apply]
  exact normalize_entry_nonneg matrix _ _

theorem rMatrix_entry_nonneg (matrix : List (List ℕ))
    (i : Fin (transients (normalize matrix)).length)
    (j : Fin (absorbings (normalize matrix)).length) :
    0 ≤ toMat (rMatrix (normalize matrix)) (transients (normalize matrix)).length
      (absorbings (normalize matrix)).length i j := by
  rw [toMat_rMatrix_apply]
  exact normalize_entry_nonneg matrix _ _

theorem qMatrix_row_sum_le_one (matrix : List (List ℕ)) (n : ℕ)
    (h1 : matrix.length = n) (h2 : ∀ row ∈ matrix, row.length = n)
    (i : Fin (transients (normalize matrix)).length) :
    ∑ j, toMat (qMatrix (normalize matrix)) (transients (normalize matrix)).length
      (transients (normalize matrix)).length i j ≤ 1 := by
  have hc := row_sums_complement matrix n h1 h2 i
  have hr : 0 ≤ ∑ j, toMat (rMatrix (normalize matrix))
      (transients (normalize matrix)).length (absorbings (normalize matrix)).length i j :=
    Finset.sum_nonneg fun j _ => rMatrix_entry_nonneg matrix i j
  linarith

theorem qMatrix_leak_row (matrix : List (List ℕ)) (n : ℕ)
    (h1 : matrix.length = n) (h2 : ∀ row ∈ matrix, row.length = n)
    {l b : ℕ} (hlT : l ∈ transients (normalize matrix))
    (hbA : b ∈ absorbings (normalize matrix)) (hstep : step matrix l b)
    (i : Fin (transients (normalize matrix)).length)
    (hi : (transients (normalize matrix)).getD (i : ℕ) 0 = l) :
    ∑ j, toMat (qMatrix (normalize matrix)) (transients (normalize matrix)).length
      (transients (normalize matrix)).length i j < 1 := by
  have hc := row_sums_complement matrix n h1 h2 i
  rw [rMatrix_row_sum, hi] at hc
  obtain ⟨hllen, hlz⟩ := (mem_transients_iff matrix l).1 hlT
  have hpos : 0 < entry (normalize matrix) l b := by
    simp only [step] at hstep
    exact normalize_entry_pos matrix l b hllen hlz hstep
  have hmem : entry (normalize matrix) l b ∈
      (absorbings (normalize matrix)).map fun u => entry (normalize matrix) l u :=
    List.mem_map_of_mem (fun u => entry (normalize matrix) l u) hbA
  have hle : entry (normalize matrix) l b ≤
      ((absorbings (normalize matrix)).map fun u => entry (normalize matrix) l u).sum :=
    List.single_le_sum (fun x hx => by
      obtain ⟨u, _, rfl⟩ := List.mem_map.1 hx
      exact normalize_entry_nonneg matrix l u) _ hmem
  linarith

theorem qMatrix_reach (matrix : List (List ℕ)) (n : ℕ) (hv : ValidInput matrix n) :
    ∀ i : Fin (transients (normalize matrix)).length,
      ∃ l, Relation.ReflTransGen (fun p q => 0 < toMat (qMatrix (normalize matrix))
          (transients (normalize matrix)).length
          (transients (normalize matrix)).length p q) i l ∧
        ∑ j, toMat (qMatrix (normalize matrix)) (transients (normalize matrix)).length
          (transients (normalize matrix)).length l j < 1 := by
  intro i
  obtain ⟨l, b, hlT, hp, hsb, hbA⟩ :=
    transient_reaches_leak matrix n hv _ (transients_getD_mem (normalize matrix) i)
  refine ⟨⟨(transients (normalize matrix)).indexOf l, List.indexOf_lt_length.2 hlT⟩,
    transfer_path matrix hp hlT i rfl, ?_⟩
  exact qMatrix_leak_row matrix n hv.1 hv.2.1 hlT hbA hsb _ (getD_indexOf hlT)

theorem determinant_eq_det_pos (m : List (List ℚ)) (k : ℕ) (hk : 0 < k)
    (hm : IsRect m k k) : determinant m = (toMat m k k).det := by
  obtain ⟨k', rfl⟩ : ∃ k', k = k' + 1 := ⟨k - 1, by omega⟩
  exact determinant_eq_det k' m hm

theorem inverse_isRect_toMat_pos (m : List (List ℚ)) (k : ℕ) (hk : 0 < k)
    (hm : IsRect m k k) (hdet : determinant m ≠ 0) :
    IsRect (inverse m) k k ∧ toMat (inverse m) k k = (toMat m k k)⁻¹ := by
  obtain ⟨k', rfl⟩ : ∃ k', k = k' + 1 := ⟨k - 1, by omega⟩
  exact inverse_isRect_toMat m k' hm hdet

theorem headD_sum_toMat (B : List (List ℚ)) (t a : ℕ) (hB : IsRect B t a) (ht : 0 < t) :
    (B.headD []).sum = ∑ j : Fin a, toMat B t a ⟨0, ht⟩ j := by
  rw [headD_eq_getD_zero, sum_eq_sum_fin_of_length _ a (hB.row_length ht)]
  exact Finset.sum_congr rfl fun j _ => rfl

theorem headD_mem_toMat (B : List (List ℚ)) (t a : ℕ) (hB : IsRect B t a) (ht : 0 < t)
    (p : ℚ) (hp : p ∈ B.headD []) : ∃ j : Fin a, p = toMat B t a ⟨0, ht⟩ j := by
  rw [headD_eq_getD_zero] at hp
  obtain ⟨j, hj, rfl⟩ := List.mem_iff_getElem.1 hp
  have hjA : j < a := by
    rw [← hB.row_length ht]
    exact hj
  refine ⟨⟨j, hjA⟩, ?_⟩
  rw [← getD_eq_getElem_of_lt _ 0 j hj]
  rfl

theorem mul_nonneg_entries {t a : ℕ} (N : Matrix (Fin t) (Fin t) ℚ)
    (R : Matrix (Fin t) (Fin a) ℚ) (hN : ∀ i j, 0 ≤ N i j) (hR : ∀ i j, 0 ≤ R i j)
    (i : Fin t) (j : Fin a) : 0 ≤ (N * R) i j := by
  rw [Matrix.mul_apply]
  exact Finset.sum_nonneg fun k _ => mul_nonneg (hN i k) (hR k j)

theorem mul_row_sum {t a : ℕ} (N : Matrix (Fin t) (Fin t) ℚ) (R : Matrix (Fin t) (Fin a) ℚ)
    (i : Fin t) : ∑ j, (N * R) i j = ∑ k, N i k * ∑ j, R k j := by
  simp only [Matrix.mul_apply]
  rw [Finset.sum_comm]
  exact Finset.sum_congr rfl fun k _ => (Finset.mul_sum _ _ _).symm

theorem sum_row_B {t a : ℕ} (QM : Matrix (Fin t) (Fin t) ℚ)
    (RM : Matrix (Fin t) (Fin a) ℚ) (NM : Matrix (Fin t) (Fin t) ℚ)
    (hNQ : NM * (1 - QM) = 1)
    (hComp : ∀ k, (∑ j, QM k j) + (∑ j, RM k j) = 1) (i : Fin t) :
    ∑ j, (NM * RM) i j = 1 := by
  rw [mul_row_sum]
  have h1 : ∀ k : Fin t, ∑ j, RM k j = ∑ j, (1 - QM) k j := by
    intro k
    have h2 := hComp k
    have h3 : ∑ j, (1 - QM) k j = 1 - ∑ j, QM k j := by
      simp [Matrix.sub_apply, Finset.sum_sub_distrib, Matrix.one_apply]
    linarith
  rw [Finset.sum_congr rfl fun k _ => congrArg (NM i k * ·) (h1 k), ← mul_row_sum, hNQ]
  simp [Matrix.one_apply]

set_option maxHeartbeats 2000000 in
theorem absorptionRow_nonneg_sum_one (matrix : List (List ℕ)) (n : ℕ)
    (hv : ValidInput matrix n) (h0 : (matrix.headD []).sum ≠ 0) :
    (∀ p ∈ absorptionRow matrix, 0 ≤ p) ∧ (absorptionRow matrix).sum = 1 := by
  have hlen := hv.1
  have hrows := hv.2.1
  have hn := hv.2.2.1
  have h00 : (matrix.getD 0 []).sum ≠ 0 := by rwa [headD_eq_getD_zero] at h0
  have h0T : 0 ∈ transients (normalize matrix) :=
    (mem_transients_iff matrix 0).2 ⟨by omega, h00⟩
  have ht : 0 < (transients (normalize matrix)).length := List.length_pos_of_mem h0T
  have hQrect := qMatrix_isRect (normalize matrix)
  have hRrect := rMatrix_isRect (normalize matrix)
  have hQ0 : ∀ i j, 0 ≤ toMat (qMatrix (normalize matrix))
      (transients (normalize matrix)).length (transients (normalize matrix)).length i j :=
    fun i j => qMatrix_entry_nonneg matrix i j
  have hQ1 : ∀ i, ∑ j, toMat (qMatrix (normalize matrix))
      (transients (normalize matrix)).length (transients (normalize matrix)).length i j ≤ 1 :=
    fun i => qMatrix_row_sum_le_one matrix n hlen hrows i
  have hreach := qMatrix_reach matrix n hv
  have hdet1 : (1 - toMat (qMatrix (normalize matrix))
      (transients (normalize matrix)).length
      (transients (normalize matrix)).length).det ≠ 0 :=
    det_one_sub_ne_zero _ hQ0 hQ1 hreach
  have hNnn := inv_one_sub_nonneg _ hQ0 hQ1 hreach
  have hQlen : (qMatrix (normalize matrix)).length =
      (transients (normalize matrix)).length := hQrect.1
  have hIrect : IsRect (identityMatrix (qMatrix (normalize matrix)).length)
      (transients (normalize matrix)).length (transients (normalize matrix)).length := by
    rw [hQlen]
    exact identityMatrix_isRect _
  have hSrect : IsRect (matSub (identityMatrix (qMatrix (normalize matrix)).length)
      (qMatrix (normalize matrix))) (transients (normalize matrix)).length
      (transients (normalize matrix)).length :=
    matSub_isRect _ _ _ _ hIrect
  have hStoMat : toMat (matSub (identityMatrix (qMatrix (normalize matrix)).length)
        (qMatrix (normalize matrix))) (transients (normalize matrix)).length
        (transients (normalize matrix)).length =
      1 - toMat (qMatrix (normalize matrix)) (transients (normalize matrix)).length
        (transients (normalize matrix)).length := by
    rw [toMat_matSub _ _ _ _ hIrect]
    congr 1
    rw [hQlen]
    exact toMat_identityMatrix _
  have hdetS : determinant (matSub (identityMatrix (qMatrix (normalize matrix)).length)
      (qMatrix (normalize matrix))) ≠ 0 := by
    rw [determinant_eq_det_pos _ _ ht hSrect, hStoMat]
    exact hdet1
  obtain ⟨hNrect, hNtoMat⟩ := inverse_isRect_toMat_pos _ _ ht hSrect hdetS
  rw [hStoMat] at hNtoMat
  have habsrow : absorptionRow matrix =
      (matrixMultiply (inverse (matSub (identityMatrix (qMatrix (normalize matrix)).length)
        (qMatrix (normalize matrix)))) (rMatrix (normalize matrix))).headD [] := rfl
  have hBrect : IsRect (matrixMultiply (inverse (matSub
        (identityMatrix (qMatrix (normalize matrix)).length) (qMatrix (normalize matrix))))
        (rMatrix (normalize matrix))) (transients (normalize matrix)).length
      (absorbings (normalize matrix)).length :=
    matrixMultiply_isRect _ _ _ _ _ hNrect hRrect ht
  have hrow0len : ((matrixMultiply (inverse (matSub
        (identityMatrix (qMatrix (normalize matrix)).length) (qMatrix (normalize matrix))))
        (rMatrix (normalize matrix))).getD 0 []).length =
      (absorbings (normalize matrix)).length := hBrect.row_length ht
  have hNQ : toMat (inverse (matSub (identityMatrix (qMatrix (normalize matrix)).length)
        (qMatrix (normalize matrix)))) (transients (normalize matrix)).length
        (transients (normalize matrix)).length *
      (1 - toMat (qMatrix (normalize matrix)) (transients (normalize matrix)).length
        (transients (normalize matrix)).length) = 1 := by
    rw [hNtoMat]
    exact Matrix.nonsing_inv_mul _ (isUnit_iff_ne_zero.2 hdet1)
  have hBtoMat : toMat (matrixMultiply (inverse (matSub
        (identityMatrix (qMatrix (normalize matrix)).length) (qMatrix (normalize matrix))))
        (rMatrix (normalize matrix))) (transients (normalize matrix)).length
        (absorbings (normalize matrix)).length =
      toMat (inverse (matSub (identityMatrix (qMatrix (normalize matrix)).length)
          (qMatrix (normalize matrix)))) (transients (normalize matrix)).length
          (transients (normalize matrix)).length *
        toMat (rMatrix (normalize matrix)) (transients (normalize matrix)).length
          (absorbings (normalize matrix)).length :=
    toMat_matrixMultiply _ _ _ _ _ hNrect hRrect ht
  have hNM0 : ∀ i j, 0 ≤ toMat (inverse (matSub
      (identityMatrix (qMatrix (normalize matrix)).length) (qMatrix (normalize matrix))))
      (transients (normalize matrix)).length (transients (normalize matrix)).length i j := by
    intro i j
    rw [hNtoMat]
    exact hNnn i j
  constructor
  · intro p hp
    rw [habsrow] at hp
    obtain ⟨j, hj⟩ := headD_mem_toMat _ _ _ hBrect ht p hp
    rw [hj, hBtoMat]
    exact mul_nonneg_entries _ _ hNM0 (fun i j => rMatrix_entry_nonneg matrix i j) _ _
  · rw [habsrow, headD_sum_toMat _ _ _ hBrect ht, hBtoMat]
    exact sum_row_B _ _ _ hNQ (fun k => row_sums_complement matrix n hlen hrows k) ⟨0, ht⟩

theorem sum_intOfRat (l : List ℚ) (d : ℕ) (hd : ∀ p ∈ l, (p * (d : ℚ)).den = 1) :
    (((l.map fun p => intOfRat (fmul p (intFrac (d : ℕ)))).sum : ℤ) : ℚ) = l.sum * d := by
  rw [Int.cast_list_sum, List.map_map]
  have h : ∀ p ∈ l,
      ((fun x : ℤ => (x : ℚ)) ∘ fun p => intOfRat (fmul p (intFrac (d : ℕ)))) p =
        p * (d : ℚ) := by
    intro p hp
    simp only [Function.comp]
    rw [fmul_intFrac_natCast]
    exact intOfRat_den_one _ (hd p hp)
  rw [List.map_congr_left h, sum_map_mul_right_rat]

/-- C1: for every valid input count matrix (square and non-empty, with every
state able to reach an absorbing state), the list returned by `solution` is a
list of non-negative integer numerators followed by one positive integer
denominator, and the numerators sum exactly to the denominator. -/
theorem solution_valid_output (matrix : List (List ℕ)) (n : ℕ) (hv : ValidInput matrix n) :
    ∃ (nums : List ℤ) (d : ℤ), solution matrix = nums ++ [d] ∧
      (∀ x ∈ nums, 0 ≤ x) ∧ 0 < d ∧ nums.sum = d := by
  by_cases h0 : (matrix.headD []).sum = 0
  · refine ⟨1 :: (((matrix.drop 1).filter fun row => row.sum == 0).map fun _ => (0 : ℤ)), 1,
      ?_, ?_, one_pos, ?_⟩
    · rw [solution, if_pos h0]
    · intro x hx
      rcases List.mem_cons.1 hx with rfl | hx
      · norm_num
      · obtain ⟨r, _, rfl⟩ := List.mem_map.1 hx
        exact le_refl 0
    · rw [List.sum_cons]
      have hz : ((((matrix.drop 1).filter fun row => row.sum == 0).map
          fun _ => (0 : ℤ)).sum : ℤ) = 0 :=
        List.sum_eq_zero fun x hx => by
          obtain ⟨r, _, rfl⟩ := List.mem_map.1 hx
          rfl
      rw [hz]
      norm_num
  · obtain ⟨hnn, hsum1⟩ := absorptionRow_nonneg_sum_one matrix n hv h0
    have hD0 : lcmList ((absorptionRow matrix).map Rat.den) ≠ 0 := by
      rw [lcmList_eq_foldl]
      apply foldl_lcm_ne_zero _ 1 one_ne_zero
      intro x hx
      obtain ⟨p, _, rfl⟩ := List.mem_map.1 hx
      exact p.den_nz
    have hdall : ∀ p ∈ absorptionRow matrix,
        (p * ((lcmList ((absorptionRow matrix).map Rat.den) : ℕ) : ℚ)).den = 1 := by
      intro p hp
      apply (den_mul_natCast_eq_one_iff p _).2
      rw [lcmList_eq_foldl]
      exact (dvd_foldl_lcm _ 1).2 p.den (List.mem_map_of_mem Rat.den hp)
    refine ⟨(absorptionRow matrix).map fun p =>
        intOfRat (fmul p (intFrac (lcmList ((absorptionRow matrix).map Rat.den)))),
      ((lcmList ((absorptionRow matrix).map Rat.den) : ℕ) : ℤ), ?_, ?_, ?_, ?_⟩
    · simp only [solution, if_neg h0]
    · intro x hx
      obtain ⟨p, hp, rfl⟩ := List.mem_map.1 hx
      have hcast : ((intOfRat (fmul p
            (intFrac (lcmList ((absorptionRow matrix).map Rat.den)))) : ℤ) : ℚ) =
          p * ((lcmList ((absorptionRow matrix).map Rat.den) : ℕ) : ℚ) := by
        rw [fmul_intFrac_natCast]
        exact intOfRat_den_one _ (hdall p hp)
      have hnonneg : (0 : ℚ) ≤
          p * ((lcmList ((absorptionRow matrix).map Rat.den) : ℕ) : ℚ) :=
        mul_nonneg (hnn p hp) (by positivity)
      rw [← hcast] at hnonneg
      exact_mod_cast hnonneg
    · exact_mod_cast Nat.pos_of_ne_zero hD0
    · have hinj : ∀ a b : ℤ, ((a : ℚ) = (b : ℚ)) → a = b := fun a b h => by
        exact_mod_cast h
      apply hinj
      rw [sum_intOfRat _ _ hdall, hsum1, one_mul, Int.cast_natCast]

/-- Witness for C1 at the concrete valid input `[[1, 1], [0, 0]]` (state 0
transient, state 1 absorbing). -/
theorem solution_valid_output_witness :
    ValidInput [[1, 1], [0, 0]] 2 ∧
    ∃ (nums : List ℤ) (d : ℤ), solution [[1, 1], [0, 0]] = nums ++ [d] ∧
      (∀ x ∈ nums, 0 ≤ x) ∧ 0 < d ∧ nums.sum = d := by
  have hvi : ValidInput [[1, 1], [0, 0]] 2 := by
    refine ⟨rfl, by decide, by decide, ?_⟩
    intro s hs
    interval_cases s
    · exact ⟨1, Relation.ReflTransGen.single (by unfold step; decide),
        by unfold Absorbing; decide⟩
    · exact ⟨1, Relation.ReflTransGen.refl, by unfold Absorbing; decide⟩
  exact ⟨hvi, solution_valid_output _ 2 hvi⟩

end DoomsdayFuel
